import Mathlib

/-!
# Channel of the push node (src/node/channel.go)

A shallow embedding of the sequence channel: the connection list, the
operations AddConn, RemoveConn, PushMsg, Close, AddToken and AuthToken, and
the events each call performs, in program order.

Pointers are modelled by identifiers: a connection is a ConnId into a heap of
Connection records, a list node is a NodeId.  A nil byte slice is none.
-/

namespace Zpush

/-- Identity of a Connection object (the pointer value). -/
abbrev ConnId := Nat

/-- Identity of a list node (the pointer value of the handle). -/
abbrev NodeId := Nat

/-- A Go byte slice: none is the nil slice, some bs a non-nil slice. -/
abbrev ByteSlice := Option (List Nat)

/-- The error values of channel.go, ErrMaxConn (declared elsewhere in the
package) and any other error a collaborator may return. -/
inductive Error where
  | ErrMessageSave
  | ErrMessageGet
  | ErrMessageRPC
  | ErrAssectionConn
  | ErrMaxConn
  | other (code : Nat)
  deriving DecidableEq, Repr

/-- The fields of Message that channel.go reads and writes. -/
structure Message where
  Msg : List Nat
  MsgId : Int
  deriving DecidableEq, Repr

/-- The outbound queue of a connection: a buffered Go channel of byte slices.
The field buf records, in order, what has been sent on it. -/
structure Chan where
  cap : Nat
  buf : List (String × ByteSlice)
  closed : Bool
  deriving DecidableEq, Repr

/-- The fields of Connection that channel.go reads and writes: the protocol
version and the outbound queue (none is the nil channel). -/
structure Connection where
  Version : String
  Msgs : Option Chan
  deriving DecidableEq, Repr

/-- What stops a call without a return: a send or close that panics, or a
send on a nil channel, which blocks forever. -/
inductive Fault where
  | closeNilChan
  | closeClosedChan
  | sendNilChan
  | sendClosedChan
  deriving DecidableEq, Repr

/-- Either the call returned a value, or it stopped with a fault. -/
inductive Outcome (α : Type) where
  | ret (a : α)
  | fault (f : Fault)
  deriving DecidableEq, Repr

/-- A node of the connection list: its identity, the connection that PushMsg
and Close read from it (e.Conn), and whether the value it holds is a
Connection, which is what the type assertion of RemoveConn tests on the
value that Remove hands back. -/
structure Node where
  id : NodeId
  Conn : ConnId
  isConn : Bool
  deriving DecidableEq, Repr

/-- Modelled from the spec: the Hlist container (package hlist) is not under
src/. It is an ordered collection with append returning a handle, removal by
handle, forward iteration in insertion order and a count. The nodes are
listed from Front() onwards; fresh is the identity the next new node gets. -/
structure Hlist where
  nodes : List Node
  fresh : NodeId
  deriving DecidableEq, Repr

/-- Modelled from the spec: hlist.New is not under src/; it gives the empty
collection. -/
def Hlist.New : Hlist := ⟨[], 0⟩

/-- Modelled from the spec: Hlist.Len is not under src/; it is the count. -/
def Hlist.Len (l : Hlist) : Nat := l.nodes.length

/-- Modelled from the spec: the insertion that AddConn calls, PushFront, is
not under src/. The container of the spec appends and is iterated forward in
insertion order: the new node, holding the connection, goes after the nodes
that are there, and its handle is returned. -/
def Hlist.PushFront (l : Hlist) (conn : ConnId) : Hlist × NodeId :=
  (⟨l.nodes ++ [⟨l.fresh, conn, true⟩], l.fresh + 1⟩, l.fresh)

/-- Modelled from the spec: Hlist.Remove is not under src/. Removal by handle
takes the node with that handle out of the collection and returns the value
it held: the connection when the value is one, and a value that is not a
connection (none) otherwise. For a handle that is not in the collection
(already removed, or of another set) nothing is taken out and the returned
value is not a connection (none). -/
def Hlist.Remove (l : Hlist) (node : NodeId) : Hlist × Option ConnId :=
  match l.nodes.find? (fun e => e.id = node) with
  | some e =>
    (⟨l.nodes.filter (fun x => x.id ≠ node), l.fresh⟩,
      if e.isConn then some e.Conn else none)
  | none => (l, none)

/-- Modelled from the spec: the time id generator of the channel is not under
src/. It is a private monotonic sequence: ID returns the successor of the last
id it gave. -/
structure TimeID where
  lastID : Int
  deriving DecidableEq, Repr

/-- Modelled from the spec: TimeID.ID is not under src/; see TimeID. -/
def TimeID.ID (t : TimeID) : Int × TimeID := (t.lastID + 1, ⟨t.lastID + 1⟩)

/-- The Channel struct: the mutex (true when held), the connection list, the
token, and the id generator that PushMsg uses as c.timeID. -/
structure Channel where
  mutex : Bool
  connections : Hlist
  token : String
  timeID : TimeID
  deriving DecidableEq, Repr

/-- The configuration values read by channel.go (the Conf declaration is not
under src/). -/
structure Config where
  MaxSubscriberPerChannel : Int
  MsgBufNum : Nat
  deriving DecidableEq, Repr

/-- The collaborators of channel.go whose code is not under src/, taken as
parameters: the configuration, the heartbeat reply bytes, the transport write
and close of a connection (the error returned, none for nil), the message
service proxy, and the two encoders of Message, each giving the pair
(bytes, error) that the Go method returns. -/
structure Env where
  Conf : Config
  HeartbeatReply : List Nat
  connWrite : ConnId → List Nat → Option Error
  connClose : ConnId → Option Error
  SavePrivateMessage : String → List Nat → Int → Nat → Option Error
  OldBytes : Message → ByteSlice × Option Error
  Bytes : Message → ByteSlice × Option Error

/-- What a call does, in program order. -/
inductive Event where
  | Lock
  | Unlock
  | Len (n : Nat)
  | Front
  | Next
  | PushFront (node : NodeId) (conn : ConnId)
  | Remove (node : NodeId)
  | ID (id : Int)
  | SavePrivateMessage (key : String) (msg : List Nat) (id : Int) (expire : Nat)
  | OldBytes (m : Message)
  | Bytes (m : Message)
  | Write (conn : ConnId) (key : String) (msg : ByteSlice)
  | ConnWrite (conn : ConnId) (b : List Nat)
  | MakeMsgs (conn : ConnId) (cap : Nat)
  | HandleWrite (conn : ConnId) (key : String)
  | CloseMsgs (conn : ConnId)
  | ConnClose (conn : ConnId)
  | IncrAdd
  | IncrRemove
  | LogError
  | LogInfo
  | LogWarn
  deriving DecidableEq, Repr

/-- The heap of Connection objects. -/
abbrev Heap := ConnId → Connection

/-- Heap update at one connection. -/
def Heap.set (h : Heap) (c : ConnId) (v : Connection) : Heap :=
  fun x => if x = c then v else h x

/-- The state the operations act on: the channel, the connections it can
point to, and the active-connections counter ConnStat. -/
structure State where
  c : Channel
  conns : Heap
  ConnStat : Int

/-- The result of a call: what it returned, the state it left, and the events
it performed. -/
structure Out (α : Type) where
  ret : α
  st : State
  tr : List Event

/-- NewChannel: unlocked mutex, empty list, no token. -/
def NewChannel : Channel :=
  { mutex := false, connections := Hlist.New, token := "", timeID := ⟨0⟩ }

/-- AddToken returns nil and touches nothing. -/
def AddToken (s : State) (_key _token : String) : Out (Option Error) :=
  ⟨none, s, []⟩

/-- AuthToken returns true and touches nothing. -/
def AuthToken (s : State) (_key _token : String) : Out Bool :=
  ⟨true, s, []⟩

/-- Modelled from the spec: Connection.Write is not under src/. It enqueues
the bytes, tagged with the key, onto the outbound queue of the connection: a
send on the channel Msgs. A send on a nil channel never completes and a send
on a closed channel panics. The draining of the queue by the background
writer, and the wait for it when the queue is full, are not modelled. -/
def Connection.Write (c : Connection) (key : String) (msg : ByteSlice) :
    Outcome Connection :=
  match c.Msgs with
  | none => .fault .sendNilChan
  | some q =>
    if q.closed then .fault .sendClosedChan
    else .ret { c with Msgs := some { q with buf := q.buf ++ [(key, msg)] } }

/-- The state of the PushMsg loop: the two memoized encodings and the heap. -/
structure LoopSt where
  oldMsg : ByteSlice
  msg : ByteSlice
  conns : Heap

/-- The choice of the bytes to send to one connection (lines 85 to 103),
with the encoder calls it makes: an error of the encoder, or the bytes and
the memoized encodings. -/
def selectMsg (env : Env) (m : Message) (version : String) (oldMsg msg : ByteSlice) :
    List Event × (Error ⊕ (ByteSlice × ByteSlice × ByteSlice)) :=
  if version = "" then
    if oldMsg = none then
      match env.OldBytes m with
      | (_, some err) => ([.OldBytes m], .inl err)
      | (b, none) => ([.OldBytes m], .inr (b, b, msg))
    else ([], .inr (oldMsg, oldMsg, msg))
  else
    if msg = none then
      match env.Bytes m with
      | (_, some err) => ([.Bytes m], .inl err)
      | (b, none) => ([.Bytes m], .inr (b, oldMsg, b))
    else ([], .inr (msg, oldMsg, msg))

/-- The loop of PushMsg (lines 82 to 105) over the nodes from Front()
onwards. An encoder error unlocks the mutex and returns the error; a fault
stops the call where it is; at the end of the list the loop is left. -/
def pushLoop (env : Env) (key : String) (m : Message) :
    List Node → LoopSt → Outcome (Option Error) × Heap × List Event
  | [], ls => (.ret none, ls.conns, [])
  | e :: rest, ls =>
    let conn := e.Conn
    match selectMsg env m (ls.conns conn).Version ls.oldMsg ls.msg with
    | (evs, .inl err) => (.ret (some err), ls.conns, evs ++ [.Unlock])
    | (evs, .inr (sendMsg, oldMsg, msg)) =>
      match (ls.conns conn).Write key sendMsg with
      | .fault f => (.fault f, ls.conns, evs ++ [.Write conn key sendMsg])
      | .ret c1 =>
        let r := pushLoop env key m rest ⟨oldMsg, msg, ls.conns.set conn c1⟩
        (r.1, r.2.1, evs ++ [.Write conn key sendMsg, .Next] ++ r.2.2)

/-- PushMsg (lines 64 to 108). Returns the error and the message as the
call left it (its MsgId is rewritten). -/
def PushMsg (env : Env) (s : State) (key : String) (m : Message) (expire : Nat) :
    Out (Outcome (Option Error) × Message) :=
  let idt := s.c.timeID.ID
  let m1 : Message := { m with MsgId := idt.1 }
  let c1 : Channel := { s.c with mutex := true, timeID := idt.2 }
  let saved : List Event × Option Error :=
    if expire > 0 then
      ([.SavePrivateMessage key m1.Msg m1.MsgId expire],
        env.SavePrivateMessage key m1.Msg m1.MsgId expire)
    else ([], none)
  match saved with
  | (evs, some err) =>
    ⟨(.ret (some err), m1), { s with c := { c1 with mutex := false } },
      [.Lock, .ID idt.1] ++ evs ++ [.Unlock, .LogError]⟩
  | (evs, none) =>
    match pushLoop env key m1 s.c.connections.nodes ⟨none, none, s.conns⟩ with
    | (.ret (some err), h, tr) =>
      ⟨(.ret (some err), m1), { s with c := { c1 with mutex := false }, conns := h },
        [.Lock, .ID idt.1] ++ evs ++ [.Front] ++ tr⟩
    | (.ret none, h, tr) =>
      ⟨(.ret none, m1), { s with c := { c1 with mutex := false }, conns := h },
        [.Lock, .ID idt.1] ++ evs ++ [.Front] ++ tr ++ [.Unlock]⟩
    | (.fault f, h, tr) =>
      ⟨(.fault f, m1), { s with c := c1, conns := h },
        [.Lock, .ID idt.1] ++ evs ++ [.Front] ++ tr⟩

/-- AddConn (lines 111 to 132). Returns the handle (none for nil) and the
error (none for nil). -/
def AddConn (env : Env) (s : State) (key : String) (conn : ConnId) :
    Out (Option NodeId × Option Error) :=
  let n := s.c.connections.Len
  if (n : Int) + 1 > env.Conf.MaxSubscriberPerChannel then
    ⟨(none, some .ErrMaxConn), { s with c := { s.c with mutex := false } },
      [.Lock, .Len n, .Unlock, .LogError]⟩
  else
    match env.connWrite conn env.HeartbeatReply with
    | some err =>
      ⟨(none, some err), { s with c := { s.c with mutex := false } },
        [.Lock, .Len n, .ConnWrite conn env.HeartbeatReply, .Unlock, .LogError]⟩
    | none =>
      let q : Chan := { cap := env.Conf.MsgBufNum, buf := [], closed := false }
      let h := s.conns.set conn { s.conns conn with Msgs := some q }
      let p := s.c.connections.PushFront conn
      ⟨(some p.2, none),
        { c := { s.c with mutex := false, connections := p.1 }, conns := h,
          ConnStat := s.ConnStat + 1 },
        [.Lock, .Len n, .ConnWrite conn env.HeartbeatReply,
          .MakeMsgs conn env.Conf.MsgBufNum, .HandleWrite conn key,
          .PushFront p.2 conn, .Unlock, .IncrAdd, .Len p.1.Len, .LogInfo]⟩

/-- RemoveConn (lines 135 to 147). The close of a nil or of a closed channel
panics. -/
def RemoveConn (s : State) (_key : String) (node : NodeId) :
    Out (Outcome (Option Error)) :=
  let p := s.c.connections.Remove node
  let c1 : Channel := { s.c with mutex := false, connections := p.1 }
  match p.2 with
  | none =>
    ⟨.ret (some .ErrAssectionConn), { s with c := c1 }, [.Lock, .Remove node, .Unlock]⟩
  | some conn =>
    match (s.conns conn).Msgs with
    | none =>
      ⟨.fault .closeNilChan, { s with c := c1 },
        [.Lock, .Remove node, .Unlock, .CloseMsgs conn]⟩
    | some q =>
      if q.closed then
        ⟨.fault .closeClosedChan, { s with c := c1 },
          [.Lock, .Remove node, .Unlock, .CloseMsgs conn]⟩
      else
        ⟨.ret none,
          { c := c1,
            conns := s.conns.set conn { s.conns conn with Msgs := some { q with closed := true } },
            ConnStat := s.ConnStat - 1 },
          [.Lock, .Remove node, .Unlock, .CloseMsgs conn, .IncrRemove, .Len p.1.Len, .LogInfo]⟩

/-- The body of the loop of Close, over the nodes from Front() onwards: the
transport close of each connection, a warning when it fails. -/
def closeLoop (env : Env) : List Node → List Event
  | [] => []
  | e :: rest =>
    (match env.connClose e.Conn with
      | some _ => [.ConnClose e.Conn, .LogWarn, .Next]
      | none => [.ConnClose e.Conn, .Next]) ++ closeLoop env rest

/-- Close (lines 150 to 159). -/
def Close (env : Env) (s : State) : Out (Option Error) :=
  ⟨none, { s with c := { s.c with mutex := false } },
    [.Lock, .Front] ++ closeLoop env s.c.connections.nodes ++ [.Unlock]⟩

/-! ## Notions used to state the properties -/

/-- The encoding a connection with the given version gets: the legacy bytes
of OldBytes for the empty version, the bytes of Bytes otherwise. -/
def encoding (env : Env) (m : Message) (version : String) : ByteSlice :=
  if version = "" then (env.OldBytes m).1 else (env.Bytes m).1

/-- The event is an enqueue by Connection.Write. -/
def Event.isWrite : Event → Bool
  | .Write _ _ _ => true
  | _ => false

/-- The event is a call of the legacy encoder. -/
def Event.isOldBytes : Event → Bool
  | .OldBytes _ => true
  | _ => false

/-- The event is a call of the current encoder. -/
def Event.isBytes : Event → Bool
  | .Bytes _ => true
  | _ => false

/-- The event is a call of SavePrivateMessage. -/
def Event.isSave : Event → Bool
  | .SavePrivateMessage _ _ _ _ => true
  | _ => false

/-- The message of a PushMsg call once its id is rewritten (line 73). -/
def stamped (s : State) (m : Message) : Message :=
  { m with MsgId := s.c.timeID.ID.1 }

/-- The events of the persistence step of a PushMsg call (lines 74 to 80). -/
def saveEvents (s : State) (key : String) (m : Message) (expire : Nat) : List Event :=
  if expire > 0 then [.SavePrivateMessage key m.Msg s.c.timeID.ID.1 expire] else []

/-- The loop of a PushMsg call, as the call starts it. -/
def fanOut (env : Env) (s : State) (key : String) (m : Message) :
    Outcome (Option Error) × Heap × List Event :=
  pushLoop env key (stamped s m) s.c.connections.nodes ⟨none, none, s.conns⟩

/-- The channel after a PushMsg call that returns. -/
def pushed (s : State) : Channel :=
  { s.c with mutex := false, timeID := s.c.timeID.ID.2 }

/-- The legacy encoder gives a non-nil byte slice for the message when it
gives no error. -/
def OldNonNil (env : Env) (m : Message) : Prop :=
  (env.OldBytes m).2 = none → (env.OldBytes m).1 ≠ none

/-- The current encoder gives a non-nil byte slice for the message when it
gives no error. -/
def NewNonNil (env : Env) (m : Message) : Prop :=
  (env.Bytes m).2 = none → (env.Bytes m).1 ≠ none

/-- How many encoder calls a memoized encoding still allows: one when it is
nil, none when it is set. -/
def budget (o : ByteSlice) : Nat := if o = none then 1 else 0

/-- The connections a call enqueues for, in the order of its Write events. -/
def written (tr : List Event) : List ConnId :=
  tr.filterMap (fun ev => match ev with
    | .Write c _ _ => some c
    | _ => none)

/-- The memoized encodings of the loop are nil or what the encoder gives. -/
def MemoOK (env : Env) (m : Message) (o g : ByteSlice) : Prop :=
  (o = none ∨ o = (env.OldBytes m).1) ∧ (g = none ∨ g = (env.Bytes m).1)

/-- The connection has an allocated outbound queue that is not closed. -/
def Connection.open (c : Connection) : Bool :=
  match c.Msgs with
  | some q => !q.closed
  | none => false

/-- The states a channel goes through: from a new channel with the counter
at zero, by calls of AddConn under a configuration whose maximum of
subscribers is M, of RemoveConn with the handle of an attached node, of
PushMsg and of Close, with any collaborators. -/
inductive Reachable (M : Int) : State → Prop where
  | new (h : Heap) : Reachable M ⟨NewChannel, h, 0⟩
  | addConn (env : Env) (s : State) (key : String) (conn : ConnId) :
      Reachable M s → env.Conf.MaxSubscriberPerChannel = M →
      Reachable M (AddConn env s key conn).st
  | removeConn (s : State) (key : String) (e : Node) :
      Reachable M s → e ∈ s.c.connections.nodes →
      Reachable M (RemoveConn s key e.id).st
  | pushMsg (env : Env) (s : State) (key : String) (m : Message) (expire : Nat) :
      Reachable M s → Reachable M (PushMsg env s key m expire).st
  | close (env : Env) (s : State) :
      Reachable M s → Reachable M (Close env s).st

/-- The states a channel goes through when the callers keep the precondition
of AddConn: the connection is not attached yet. -/
inductive ReachableFresh (M : Int) : State → Prop where
  | new (h : Heap) : ReachableFresh M ⟨NewChannel, h, 0⟩
  | addConn (env : Env) (s : State) (key : String) (conn : ConnId) :
      ReachableFresh M s → env.Conf.MaxSubscriberPerChannel = M →
      (∀ e ∈ s.c.connections.nodes, e.Conn ≠ conn) →
      ReachableFresh M (AddConn env s key conn).st
  | removeConn (s : State) (key : String) (e : Node) :
      ReachableFresh M s → e ∈ s.c.connections.nodes →
      ReachableFresh M (RemoveConn s key e.id).st
  | pushMsg (env : Env) (s : State) (key : String) (m : Message) (expire : Nat) :
      ReachableFresh M s → ReachableFresh M (PushMsg env s key m expire).st
  | close (env : Env) (s : State) :
      ReachableFresh M s → ReachableFresh M (Close env s).st

/-- The shape of the states of a channel whose callers keep the precondition
of AddConn: the handles of the nodes are distinct and older than the next
handle, no connection is held by two nodes, every attached connection has
an allocated queue that is not closed, and every node holds a Connection. -/
def WF (s : State) : Prop :=
  (s.c.connections.nodes.map Node.id).Nodup ∧
  (s.c.connections.nodes.map Node.Conn).Nodup ∧
  (∀ e ∈ s.c.connections.nodes, e.id < s.c.connections.fresh) ∧
  (∀ e ∈ s.c.connections.nodes, (s.conns e.Conn).open = true) ∧
  (∀ e ∈ s.c.connections.nodes, e.isConn = true)

/-- The outcome is the return of an error. -/
def returnsError : Outcome (Option Error) → Bool
  | .ret (some _) => true
  | _ => false

/-- One PushMsg call of a sequence: its collaborators and its arguments. -/
structure PushCall where
  env : Env
  key : String
  m : Message
  expire : Nat

/-- Consecutive PushMsg calls on one channel: the messages as the calls
leave them, in the order of the calls, and the state after the last one. -/
def pushSeq (s : State) : List PushCall → List Message × State
  | [] => ([], s)
  | c :: rest =>
    ((PushMsg c.env s c.key c.m c.expire).ret.2
        :: (pushSeq (PushMsg c.env s c.key c.m c.expire).st rest).1,
      (pushSeq (PushMsg c.env s c.key c.m c.expire).st rest).2)

/-- The connections whose transport a call closes, in the order of its
ConnClose events. -/
def closedConns (tr : List Event) : List ConnId :=
  tr.filterMap (fun ev => match ev with
    | .ConnClose c => some c
    | _ => none)

/-- The event is the close of an outbound queue. -/
def Event.isCloseMsgs : Event → Bool
  | .CloseMsgs _ => true
  | _ => false

/-- The event reads or writes the connection set: its length, its
iteration, an insertion or a removal. -/
def Event.accessesSet : Event → Bool
  | .Len _ => true
  | .Front => true
  | .Next => true
  | .PushFront _ _ => true
  | .Remove _ => true
  | _ => false

/-- Every access to the connection set in the events comes while the mutex
is held, the mutex being held or not at the start as the flag says. -/
def guardedFrom : Bool → List Event → Bool
  | _, [] => true
  | _, .Lock :: t => guardedFrom true t
  | _, .Unlock :: t => guardedFrom false t
  | held, ev :: t => (!ev.accessesSet || held) && guardedFrom held t

/-- Every access to the connection set in the events of a call comes after a
Lock and before the next Unlock. -/
def guarded (tr : List Event) : Bool := guardedFrom false tr

/-- The histories of a channel: the events performed so far and the state
reached, from a new channel with the counter at zero, by calls that returned:
AddConn under a configuration whose maximum of subscribers is M, RemoveConn
with the handle of an attached node, PushMsg and Close. -/
inductive History (M : Int) : List Event → State → Prop where
  | new (h : Heap) : History M [] ⟨NewChannel, h, 0⟩
  | addConn (env : Env) (t : List Event) (s : State) (key : String) (conn : ConnId) :
      History M t s → env.Conf.MaxSubscriberPerChannel = M →
      History M (t ++ (AddConn env s key conn).tr) (AddConn env s key conn).st
  | removeConn (t : List Event) (s : State) (key : String) (e : Node) (r : Option Error) :
      History M t s → e ∈ s.c.connections.nodes →
      (RemoveConn s key e.id).ret = .ret r →
      History M (t ++ (RemoveConn s key e.id).tr) (RemoveConn s key e.id).st
  | pushMsg (env : Env) (t : List Event) (s : State) (key : String) (m : Message)
      (expire : Nat) (r : Option Error) :
      History M t s → (PushMsg env s key m expire).ret.1 = .ret r →
      History M (t ++ (PushMsg env s key m expire).tr) (PushMsg env s key m expire).st
  | close (env : Env) (t : List Event) (s : State) :
      History M t s → History M (t ++ (Close env s).tr) (Close env s).st

/-- The attach log of a channel: the handles that the AddConn calls have
returned so far, the oldest first, and the state reached, from a new channel,
by calls of AddConn under a configuration whose maximum of subscribers is M,
of RemoveConn with the handle of an attached node, of PushMsg and of Close. -/
inductive Attached (M : Int) : List NodeId → State → Prop where
  | new (h : Heap) : Attached M [] ⟨NewChannel, h, 0⟩
  | addConn (env : Env) (log : List NodeId) (s : State) (key : String) (conn : ConnId) :
      Attached M log s → env.Conf.MaxSubscriberPerChannel = M →
      Attached M (log ++ (AddConn env s key conn).ret.1.toList) (AddConn env s key conn).st
  | removeConn (log : List NodeId) (s : State) (key : String) (e : Node) :
      Attached M log s → e ∈ s.c.connections.nodes →
      Attached M log (RemoveConn s key e.id).st
  | pushMsg (env : Env) (log : List NodeId) (s : State) (key : String) (m : Message)
      (expire : Nat) :
      Attached M log s → Attached M log (PushMsg env s key m expire).st
  | close (env : Env) (log : List NodeId) (s : State) :
      Attached M log s → Attached M log (Close env s).st

/-- The encoder a connection of the given version needs, with the pair
(bytes, error) it gives for the message. -/
def encoderOf (env : Env) (m : Message) (version : String) : ByteSlice × Option Error :=
  if version = "" then env.OldBytes m else env.Bytes m

/-- An environment where every collaborator succeeds: at most 2 subscribers
per channel, queues of capacity 4. -/
def envOK : Env :=
  { Conf := ⟨2, 4⟩, HeartbeatReply := [43, 104],
    connWrite := fun _ _ => none, connClose := fun _ => none,
    SavePrivateMessage := fun _ _ _ _ => none,
    OldBytes := fun m => (some (0 :: m.Msg), none),
    Bytes := fun m => (some (1 :: m.Msg), none) }

/-- As envOK, with a transport whose write fails. -/
def envWriteFails : Env :=
  { envOK with connWrite := fun _ _ => some (.other 7) }

/-- As envOK, with a message service whose save fails. -/
def envSaveFails : Env :=
  { envOK with SavePrivateMessage := fun _ _ _ _ => some .ErrMessageSave }

/-- As envOK, with a legacy encoder that fails. -/
def envOldFails : Env :=
  { envOK with OldBytes := fun _ => (none, some (.other 9)) }

/-- As envOK, with a current encoder that fails. -/
def envNewFails : Env :=
  { envOK with Bytes := fun _ => (none, some (.other 9)) }

/-- As envOK, with a current encoder that gives a nil byte slice and no
error. -/
def envNilBytes : Env :=
  { envOK with Bytes := fun _ => (none, none) }

/-- As envOK, with transports whose close fails. -/
def envCloseFails : Env :=
  { envOK with connClose := fun _ => some (.other 3) }

/-- A heap where connection 1 speaks the legacy protocol and every other one
the current protocol, none of them with a queue yet. -/
def heap0 : Heap := fun c => ⟨if c = 1 then "" else "1.0", none⟩

/-- A new channel, no connection attached. -/
def st0 : State := ⟨NewChannel, heap0, 0⟩

/-- The channel after connection 1 is attached. -/
def st1 : State := (AddConn envOK st0 "k" 1).st

/-- The channel after connections 1 and 2 are attached, in this order. -/
def st2 : State := (AddConn envOK st1 "k" 2).st

/-- The channel after the current-protocol connections 2 and 3 are attached,
in this order. -/
def st23 : State := (AddConn envOK (AddConn envOK st0 "k" 2).st "k" 3).st

/-- The channel with connection 1 attached, and with one more node, of handle
1, whose value is not a Connection. -/
def stForeign : State :=
  { st1 with c := { st1.c with connections := ⟨st1.c.connections.nodes ++ [⟨1, 7, false⟩], 2⟩ } }

/-- The channel after connections 1 and 2 are attached, connection 1 is
detached, and connection 3 is attached. -/
def st3 : State := (AddConn envOK (RemoveConn st2 "k" 0).st "k" 3).st

/-! ## The events of the loop of PushMsg -/

/-- The loop at a node whose encoder fails. -/
theorem pushLoop_cons_err (env : Env) (key : String) (m : Message) (e : Node)
    (rest : List Node) (ls : LoopSt) (evs : List Event) (err : Error)
    (h : selectMsg env m (ls.conns e.Conn).Version ls.oldMsg ls.msg = (evs, .inl err)) :
    pushLoop env key m (e :: rest) ls = (.ret (some err), ls.conns, evs ++ [.Unlock]) := by
  simp only [pushLoop, h]

/-- The loop at a node whose send faults. -/
theorem pushLoop_cons_fault (env : Env) (key : String) (m : Message) (e : Node)
    (rest : List Node) (ls : LoopSt) (evs : List Event) (b o g : ByteSlice) (f : Fault)
    (h : selectMsg env m (ls.conns e.Conn).Version ls.oldMsg ls.msg = (evs, .inr (b, o, g)))
    (hw : (ls.conns e.Conn).Write key b = .fault f) :
    pushLoop env key m (e :: rest) ls
      = (.fault f, ls.conns, evs ++ [.Write e.Conn key b]) := by
  simp only [pushLoop, h, hw]

/-- The loop at a node whose send succeeds. -/
theorem pushLoop_cons_ret (env : Env) (key : String) (m : Message) (e : Node)
    (rest : List Node) (ls : LoopSt) (evs : List Event) (b o g : ByteSlice) (c1 : Connection)
    (h : selectMsg env m (ls.conns e.Conn).Version ls.oldMsg ls.msg = (evs, .inr (b, o, g)))
    (hw : (ls.conns e.Conn).Write key b = .ret c1) :
    pushLoop env key m (e :: rest) ls
      = ((pushLoop env key m rest ⟨o, g, ls.conns.set e.Conn c1⟩).1,
         (pushLoop env key m rest ⟨o, g, ls.conns.set e.Conn c1⟩).2.1,
         evs ++ [.Write e.Conn key b, .Next]
           ++ (pushLoop env key m rest ⟨o, g, ls.conns.set e.Conn c1⟩).2.2) := by
  simp only [pushLoop, h, hw]

/-- The encoder calls of one choice are calls on the message of the push. -/
theorem selectMsg_events (env : Env) (m : Message) (v : String) (o g : ByteSlice)
    (ev : Event) (h : ev ∈ (selectMsg env m v o g).1) :
    ev = .OldBytes m ∨ ev = .Bytes m := by
  unfold selectMsg at h
  split_ifs at h
  · split at h <;> simp_all
  · simp at h
  · split at h <;> simp_all
  · simp at h

/-- No Write is among the encoder calls of one choice. -/
theorem selectMsg_no_write (env : Env) (m : Message) (v : String) (o g : ByteSlice)
    (evs : List Event) (r : Error ⊕ (ByteSlice × ByteSlice × ByteSlice))
    (h : selectMsg env m v o g = (evs, r)) (c : ConnId) (k : String) (b : ByteSlice) :
    Event.Write c k b ∉ evs := by
  intro hmem
  have := selectMsg_events env m v o g (.Write c k b) (by rw [h]; exact hmem)
  simp at this

/-- Every Write of the loop is to the connection of a node of the list, with
the key of the push. -/
theorem pushLoop_write_mem (env : Env) (key : String) (m : Message) (c : ConnId)
    (k : String) (b : ByteSlice) :
    ∀ (nodes : List Node) (ls : LoopSt),
      Event.Write c k b ∈ (pushLoop env key m nodes ls).2.2 →
      (∃ e ∈ nodes, e.Conn = c) ∧ k = key := by
  intro nodes
  induction nodes with
  | nil => intro ls h; simp [pushLoop] at h
  | cons e rest ih =>
    intro ls h
    rcases hsel : selectMsg env m (ls.conns e.Conn).Version ls.oldMsg ls.msg with
      ⟨evs, (err | ⟨sendMsg, oldMsg, msg⟩)⟩
    · rw [pushLoop_cons_err env key m e rest ls evs err hsel] at h
      have hn := selectMsg_no_write env m _ _ _ evs _ hsel c k b
      simp [hn] at h
    · have hn := selectMsg_no_write env m _ _ _ evs _ hsel c k b
      rcases hw : (ls.conns e.Conn).Write key sendMsg with c1 | f
      · rw [pushLoop_cons_ret env key m e rest ls evs _ _ _ c1 hsel hw] at h
        simp only [List.mem_append, List.mem_cons, List.mem_singleton, List.mem_nil_iff,
          hn, false_or, Event.Write.injEq, or_false] at h
        rcases h with h | h
        · rcases h with h | h
          · exact ⟨⟨e, by simp, h.1.symm⟩, h.2.1⟩
          · simp at h
        · obtain ⟨⟨e1, he1, hc⟩, hk⟩ := ih _ h
          exact ⟨⟨e1, by simp [he1], hc⟩, hk⟩
      · rw [pushLoop_cons_fault env key m e rest ls evs _ _ _ f hsel hw] at h
        simp only [List.mem_append, List.mem_singleton, hn, false_or, Event.Write.injEq] at h
        exact ⟨⟨e, by simp, h.1.symm⟩, h.2.1⟩

/-- The shape of a PushMsg call: the events before the loop, and the result
of the loop when the save does not fail. -/
theorem PushMsg_tr_cases (env : Env) (s : State) (key : String) (m : Message) (expire : Nat) :
    ((PushMsg env s key m expire).tr
        = [.Lock, .ID s.c.timeID.ID.1, .SavePrivateMessage key m.Msg s.c.timeID.ID.1 expire,
            .Unlock, .LogError]) ∨
    (∃ evs tl, (∀ ev ∈ evs, ev = .SavePrivateMessage key m.Msg s.c.timeID.ID.1 expire) ∧
      (∀ ev ∈ tl, ev = .Unlock) ∧
      (PushMsg env s key m expire).tr
        = [.Lock, .ID s.c.timeID.ID.1] ++ evs ++ [.Front]
          ++ (pushLoop env key { m with MsgId := s.c.timeID.ID.1 } s.c.connections.nodes
                ⟨none, none, s.conns⟩).2.2 ++ tl) := by
  unfold PushMsg
  by_cases hx : expire > 0
  · rcases hsv : env.SavePrivateMessage key m.Msg s.c.timeID.ID.1 expire with _ | err
    · right
      refine ⟨[.SavePrivateMessage key m.Msg s.c.timeID.ID.1 expire], ?_⟩
      simp only [hx, if_true, hsv]
      rcases hl : pushLoop env key { m with MsgId := s.c.timeID.ID.1 } s.c.connections.nodes
        ⟨none, none, s.conns⟩ with ⟨(_ | err) | f, h, tr⟩
      · exact ⟨[.Unlock], by simp, by simp, by simp⟩
      · exact ⟨[], by simp, by simp, by simp⟩
      · exact ⟨[], by simp, by simp, by simp⟩
    · left
      simp only [hx, if_true, hsv]
      rfl
  · right
    refine ⟨[], ?_⟩
    simp only [hx, if_false]
    rcases hl : pushLoop env key { m with MsgId := s.c.timeID.ID.1 } s.c.connections.nodes
      ⟨none, none, s.conns⟩ with ⟨(_ | err) | f, h, tr⟩
    · exact ⟨[.Unlock], by simp, by simp, by simp⟩
    · exact ⟨[], by simp, by simp, by simp⟩
    · exact ⟨[], by simp, by simp, by simp⟩

/-- Every Write of a PushMsg call is to the connection of a node that is in
the list when the call starts, with the key of the call. -/
theorem PushMsg_write_mem (env : Env) (s : State) (key : String) (m : Message)
    (expire : Nat) (c : ConnId) (k : String) (b : ByteSlice)
    (h : Event.Write c k b ∈ (PushMsg env s key m expire).tr) :
    (∃ e ∈ s.c.connections.nodes, e.Conn = c) ∧ k = key := by
  rcases PushMsg_tr_cases env s key m expire with ht | ⟨evs, tl, hevs, htl, ht⟩
  · rw [ht] at h; simp at h
  · rw [ht] at h
    simp only [List.mem_append, List.mem_cons, List.mem_singleton, List.mem_nil_iff] at h
    rcases h with (((h | h) | h) | h) | h
    · simp at h
    · have := hevs _ h; simp at this
    · simp at h
    · exact pushLoop_write_mem env key _ c k b _ _ h
    · have := htl _ h; simp at this

/-! ## The loop of PushMsg: what is sent, and to whom -/

/-- A successful choice gives the encoding of the version, and keeps the
memoized encodings right. -/
theorem selectMsg_inr (env : Env) (m : Message) (v : String) (o g b o1 g1 : ByteSlice)
    (evs : List Event) (hm : MemoOK env m o g)
    (h : selectMsg env m v o g = (evs, .inr (b, o1, g1))) :
    b = encoding env m v ∧ MemoOK env m o1 g1 := by
  unfold selectMsg at h
  unfold encoding
  obtain ⟨ho, hg⟩ := hm
  by_cases hv : v = ""
  · simp only [hv, if_true] at h ⊢
    by_cases hn : o = none
    · simp only [hn, if_true] at h
      rcases hob : env.OldBytes m with ⟨b0, _ | err⟩
      · simp only [hob, Prod.mk.injEq, Sum.inr.injEq] at h
        obtain ⟨_, h1, h2, h3⟩ := h
        subst h1 h2 h3
        exact ⟨rfl, Or.inr (by rw [hob]), hg⟩
      · simp [hob] at h
    · simp only [hn, if_false, Prod.mk.injEq, Sum.inr.injEq] at h
      obtain ⟨_, h1, h2, h3⟩ := h
      subst h1 h2 h3
      rcases ho with ho | ho
      · exact absurd ho hn
      · exact ⟨ho, Or.inr ho, hg⟩
  · simp only [hv, if_false] at h ⊢
    by_cases hn : g = none
    · simp only [hn, if_true] at h
      rcases hob : env.Bytes m with ⟨b0, _ | err⟩
      · simp only [hob, Prod.mk.injEq, Sum.inr.injEq] at h
        obtain ⟨_, h1, h2, h3⟩ := h
        subst h1 h2 h3
        exact ⟨rfl, ho, Or.inr (by rw [hob])⟩
      · simp [hob] at h
    · simp only [hn, if_false, Prod.mk.injEq, Sum.inr.injEq] at h
      obtain ⟨_, h1, h2, h3⟩ := h
      subst h1 h2 h3
      rcases hg with hg | hg
      · exact absurd hg hn
      · exact ⟨hg, ho, Or.inr hg⟩

/-- No encoder call is a Write. -/
theorem selectMsg_filter_write (env : Env) (m : Message) (v : String) (o g : ByteSlice)
    (evs : List Event) (r : Error ⊕ (ByteSlice × ByteSlice × ByteSlice))
    (h : selectMsg env m v o g = (evs, r)) : evs.filter Event.isWrite = [] := by
  rw [List.filter_eq_nil_iff]
  intro ev hev
  have := selectMsg_events env m v o g ev (by rw [h]; exact hev)
  rcases this with h1 | h1 <;> simp [h1, Event.isWrite]

/-- A successful send changes the queue only: it appends the payload to an
open queue, and keeps the version. -/
theorem Write_ret (c c1 : Connection) (key : String) (b : ByteSlice)
    (h : c.Write key b = .ret c1) :
    c1.Version = c.Version ∧
    ∃ q, c.Msgs = some q ∧ q.closed = false ∧
      c1.Msgs = some { q with buf := q.buf ++ [(key, b)] } := by
  unfold Connection.Write at h
  rcases hq : c.Msgs with _ | q
  · simp [hq] at h
  · simp only [hq] at h
    by_cases hc : q.closed = true
    · simp [hc] at h
    · rw [if_neg hc] at h
      cases h
      exact ⟨rfl, q, rfl, by simpa using hc, rfl⟩

/-- The loop never changes the version of a connection, whatever its outcome. -/
theorem pushLoop_version (env : Env) (key : String) (m : Message) :
    ∀ (nodes : List Node) (ls : LoopSt) (c : ConnId),
      ((pushLoop env key m nodes ls).2.1 c).Version = (ls.conns c).Version := by
  intro nodes
  induction nodes with
  | nil => intro ls c; simp [pushLoop]
  | cons e rest ih =>
    intro ls c
    rcases hsel : selectMsg env m (ls.conns e.Conn).Version ls.oldMsg ls.msg with
      ⟨evs, (err | ⟨b, o, g⟩)⟩
    · rw [pushLoop_cons_err env key m e rest ls evs err hsel]
    · rcases hw : (ls.conns e.Conn).Write key b with c1 | f
      · rw [pushLoop_cons_ret env key m e rest ls evs _ _ _ c1 hsel hw]
        simp only
        rw [ih]
        simp only [Heap.set]
        split_ifs with hc
        · rw [hc]; exact (Write_ret _ _ _ _ hw).1
        · rfl
      · rw [pushLoop_cons_fault env key m e rest ls evs _ _ _ f hsel hw]

/-- When the loop reaches the end of the list: the Write events are, in the
order of the list, one per node, each with the encoding of the version of
its connection; and every queue has been appended the payloads of the nodes
that hold its connection. -/
theorem pushLoop_ret_nil (env : Env) (key : String) (m : Message) :
    ∀ (nodes : List Node) (ls : LoopSt), MemoOK env m ls.oldMsg ls.msg →
      (pushLoop env key m nodes ls).1 = .ret none →
      (pushLoop env key m nodes ls).2.2.filter Event.isWrite
        = nodes.map (fun e => Event.Write e.Conn key
            (encoding env m (ls.conns e.Conn).Version)) ∧
      (∀ c, (nodes.filter (fun e => e.Conn = c)) = [] →
        (pushLoop env key m nodes ls).2.1 c = ls.conns c) ∧
      (∀ c q, (ls.conns c).Msgs = some q →
        ((pushLoop env key m nodes ls).2.1 c).Msgs
          = some { q with buf := (q.buf ++ (nodes.filter (fun e => e.Conn = c)).map
              (fun _ => (key, encoding env m (ls.conns c).Version))) }) := by
  intro nodes
  induction nodes with
  | nil => intro ls _ _; simp [pushLoop]
  | cons e rest ih =>
    intro ls hm h
    rcases hsel : selectMsg env m (ls.conns e.Conn).Version ls.oldMsg ls.msg with
      ⟨evs, (err | ⟨b, o, g⟩)⟩
    · rw [pushLoop_cons_err env key m e rest ls evs err hsel] at h
      simp at h
    · rcases hw : (ls.conns e.Conn).Write key b with c1 | f
      · rw [pushLoop_cons_ret env key m e rest ls evs _ _ _ c1 hsel hw] at h ⊢
        obtain ⟨hb, hm1⟩ := selectMsg_inr env m _ _ _ _ _ _ evs hm hsel
        obtain ⟨hv1, q0, hq0, _, hq1⟩ := Write_ret _ _ _ _ hw
        have hver : ∀ x, ((ls.conns.set e.Conn c1) x).Version = (ls.conns x).Version := by
          intro x
          simp only [Heap.set]
          split_ifs with hx
          · rw [hx]; exact hv1
          · rfl
        obtain ⟨ih1, ih2, ih3⟩ := ih ⟨o, g, ls.conns.set e.Conn c1⟩ hm1 h
        simp only at ih1 ih2 ih3 ⊢
        refine ⟨?_, ?_, ?_⟩
        · rw [List.filter_append, List.filter_append,
            selectMsg_filter_write env m _ _ _ evs _ hsel, ih1]
          simp only [List.nil_append, List.map_cons, hver, hb]
          rfl
        · intro c hc
          have hne : ¬ e.Conn = c := by
            intro heq
            simp [List.filter_cons, heq] at hc
          have hrest : rest.filter (fun e => e.Conn = c) = [] := by
            simpa [List.filter_cons, hne] using hc
          rw [ih2 c hrest]
          simp only [Heap.set]
          rw [if_neg (fun h => hne h.symm)]
        · intro c q hq
          by_cases hc : e.Conn = c
          · subst hc
            rw [hq] at hq0
            injection hq0 with hqq
            subst hqq
            have hset : ((ls.conns.set e.Conn c1) e.Conn).Msgs
                = some { q with buf := q.buf ++ [(key, b)] } := by
              simp only [Heap.set, if_true]; exact hq1
            rw [ih3 e.Conn _ hset, hver]
            simp [List.filter_cons, hb]
          · have hset : ((ls.conns.set e.Conn c1) c).Msgs = some q := by
              simp only [Heap.set]
              rw [if_neg (fun h => hc h.symm)]
              exact hq
            rw [ih3 c q hset, hver]
            simp [List.filter_cons, hc]
      · rw [pushLoop_cons_fault env key m e rest ls evs _ _ _ f hsel hw] at h
        simp at h

/-! ## The loop of PushMsg: the encoder calls -/

/-- One choice calls the legacy encoder within the budget of its memo, and
leaves a memo whose budget is what remains. -/
theorem selectMsg_old_budget (env : Env) (m : Message) (v : String) (o g : ByteSlice)
    (hn : OldNonNil env m) :
    (selectMsg env m v o g).1.countP Event.isOldBytes ≤ budget o ∧
    (v ≠ "" → (selectMsg env m v o g).1.countP Event.isOldBytes = 0) ∧
    ∀ b o1 g1, (selectMsg env m v o g).2 = .inr (b, o1, g1) →
      (selectMsg env m v o g).1.countP Event.isOldBytes + budget o1 ≤ budget o := by
  unfold selectMsg budget
  by_cases hv : v = ""
  · simp only [hv, if_true, ne_eq, not_true_eq_false, false_implies, true_and]
    by_cases ho : o = none
    · simp only [ho, if_true]
      rcases hob : env.OldBytes m with ⟨b0, _ | err⟩
      · have hb0 : b0 ≠ none := by
          have := hn (by rw [hob]); rw [hob] at this; exact this
        simp only [List.countP_cons, List.countP_nil, Event.isOldBytes, if_true, zero_add,
          le_refl, Sum.inr.injEq, Prod.mk.injEq, true_and]
        rintro b o1 g1 ⟨_, h2, _⟩
        subst h2
        simp [hb0]
      · simp [List.countP_cons, Event.isOldBytes]
    · simp only [ho, if_false, List.countP_nil, le_refl, Sum.inr.injEq, Prod.mk.injEq,
        true_and]
      rintro b o1 g1 ⟨_, h2, _⟩
      subst h2
      simp [ho]
  · simp only [hv, if_false, ne_eq, not_false_eq_true, true_implies]
    by_cases hg : g = none
    · simp only [hg, if_true]
      rcases hob : env.Bytes m with ⟨b0, _ | err⟩
      · simp only [List.countP_cons, List.countP_nil, Event.isOldBytes, Bool.false_eq_true,
          if_false, add_zero, Nat.zero_le, Sum.inr.injEq, Prod.mk.injEq, true_and, zero_add]
        rintro b o1 g1 ⟨_, h2, _⟩
        subst h2
        exact le_refl _
      · simp [List.countP_cons, Event.isOldBytes]
    · simp only [hg, if_false, List.countP_nil, Nat.zero_le, Sum.inr.injEq, Prod.mk.injEq,
        true_and, zero_add]
      rintro b o1 g1 ⟨_, h2, _⟩
      subst h2
      exact le_refl _

/-- One choice calls the current encoder within the budget of its memo, and
leaves a memo whose budget is what remains. -/
theorem selectMsg_new_budget (env : Env) (m : Message) (v : String) (o g : ByteSlice)
    (hn : NewNonNil env m) :
    (selectMsg env m v o g).1.countP Event.isBytes ≤ budget g ∧
    (v = "" → (selectMsg env m v o g).1.countP Event.isBytes = 0) ∧
    ∀ b o1 g1, (selectMsg env m v o g).2 = .inr (b, o1, g1) →
      (selectMsg env m v o g).1.countP Event.isBytes + budget g1 ≤ budget g := by
  unfold selectMsg budget
  by_cases hv : v = ""
  · simp only [hv, if_true, true_implies]
    by_cases ho : o = none
    · simp only [ho, if_true]
      rcases hob : env.OldBytes m with ⟨b0, _ | err⟩
      · simp only [List.countP_cons, List.countP_nil, Event.isBytes, Bool.false_eq_true,
          if_false, add_zero, Nat.zero_le, Sum.inr.injEq, Prod.mk.injEq, true_and, zero_add]
        rintro b o1 g1 ⟨_, _, h3⟩
        subst h3
        exact le_refl _
      · simp [List.countP_cons, Event.isBytes]
    · simp only [ho, if_false, List.countP_nil, Nat.zero_le, Sum.inr.injEq, Prod.mk.injEq,
        true_and, zero_add]
      rintro b o1 g1 ⟨_, _, h3⟩
      subst h3
      exact le_refl _
  · simp only [hv, if_false, false_implies, true_and]
    by_cases hg : g = none
    · simp only [hg, if_true]
      rcases hob : env.Bytes m with ⟨b0, _ | err⟩
      · have hb0 : b0 ≠ none := by
          have := hn (by rw [hob]); rw [hob] at this; exact this
        simp only [List.countP_cons, List.countP_nil, Event.isBytes, if_true, zero_add,
          le_refl, Sum.inr.injEq, Prod.mk.injEq, true_and]
        rintro b o1 g1 ⟨_, _, h3⟩
        subst h3
        simp [hb0]
      · simp [List.countP_cons, Event.isBytes]
    · simp only [hg, if_false, List.countP_nil, le_refl, Sum.inr.injEq, Prod.mk.injEq,
        true_and]
      rintro b o1 g1 ⟨_, _, h3⟩
      subst h3
      simp [hg]

/-- A choice for a connection of non-empty version does not call the
legacy encoder. -/
theorem selectMsg_old_zero (env : Env) (m : Message) (v : String) (o g : ByteSlice)
    (hv : v ≠ "") : (selectMsg env m v o g).1.countP Event.isOldBytes = 0 := by
  unfold selectMsg
  simp only [hv, if_false]
  by_cases hg : g = none
  · simp only [hg, if_true]
    rcases env.Bytes m with ⟨b0, _ | err⟩ <;> simp [List.countP_cons, Event.isOldBytes]
  · simp [hg]

/-- A choice for a connection of empty version does not call the current
encoder. -/
theorem selectMsg_new_zero (env : Env) (m : Message) (v : String) (o g : ByteSlice)
    (hv : v = "") : (selectMsg env m v o g).1.countP Event.isBytes = 0 := by
  unfold selectMsg
  simp only [hv, if_true]
  by_cases ho : o = none
  · simp only [ho, if_true]
    rcases env.OldBytes m with ⟨b0, _ | err⟩ <;> simp [List.countP_cons, Event.isBytes]
  · simp [ho]

/-- The loop calls the legacy encoder within the budget of its memo. -/
theorem pushLoop_old_budget (env : Env) (key : String) (m : Message) (hn : OldNonNil env m) :
    ∀ (nodes : List Node) (ls : LoopSt),
      (pushLoop env key m nodes ls).2.2.countP Event.isOldBytes ≤ budget ls.oldMsg := by
  intro nodes
  induction nodes with
  | nil => intro ls; simp [pushLoop]
  | cons e rest ih =>
    intro ls
    obtain ⟨h1, _, h3⟩ := selectMsg_old_budget env m (ls.conns e.Conn).Version ls.oldMsg ls.msg hn
    rcases hsel : selectMsg env m (ls.conns e.Conn).Version ls.oldMsg ls.msg with
      ⟨evs, (err | ⟨b, o, g⟩)⟩
    · rw [pushLoop_cons_err env key m e rest ls evs err hsel]
      rw [hsel] at h1
      simpa [List.countP_append, List.countP_cons, Event.isOldBytes] using h1
    · rw [hsel] at h3
      have h4 := h3 b o g rfl
      rcases hw : (ls.conns e.Conn).Write key b with c1 | f
      · rw [pushLoop_cons_ret env key m e rest ls evs _ _ _ c1 hsel hw]
        have h5 := ih ⟨o, g, ls.conns.set e.Conn c1⟩
        simp only [List.countP_append, List.countP_cons, List.countP_nil, Event.isOldBytes,
          Bool.false_eq_true, if_false, add_zero] at h4 h5 ⊢
        omega
      · rw [pushLoop_cons_fault env key m e rest ls evs _ _ _ f hsel hw]
        rw [hsel] at h1
        simpa [List.countP_append, List.countP_cons, Event.isOldBytes] using h1

/-- The loop calls the current encoder within the budget of its memo. -/
theorem pushLoop_new_budget (env : Env) (key : String) (m : Message) (hn : NewNonNil env m) :
    ∀ (nodes : List Node) (ls : LoopSt),
      (pushLoop env key m nodes ls).2.2.countP Event.isBytes ≤ budget ls.msg := by
  intro nodes
  induction nodes with
  | nil => intro ls; simp [pushLoop]
  | cons e rest ih =>
    intro ls
    obtain ⟨h1, _, h3⟩ := selectMsg_new_budget env m (ls.conns e.Conn).Version ls.oldMsg ls.msg hn
    rcases hsel : selectMsg env m (ls.conns e.Conn).Version ls.oldMsg ls.msg with
      ⟨evs, (err | ⟨b, o, g⟩)⟩
    · rw [pushLoop_cons_err env key m e rest ls evs err hsel]
      rw [hsel] at h1
      simpa [List.countP_append, List.countP_cons, Event.isBytes] using h1
    · rw [hsel] at h3
      have h4 := h3 b o g rfl
      rcases hw : (ls.conns e.Conn).Write key b with c1 | f
      · rw [pushLoop_cons_ret env key m e rest ls evs _ _ _ c1 hsel hw]
        have h5 := ih ⟨o, g, ls.conns.set e.Conn c1⟩
        simp only [List.countP_append, List.countP_cons, List.countP_nil, Event.isBytes,
          Bool.false_eq_true, if_false, add_zero] at h4 h5 ⊢
        omega
      · rw [pushLoop_cons_fault env key m e rest ls evs _ _ _ f hsel hw]
        rw [hsel] at h1
        simpa [List.countP_append, List.countP_cons, Event.isBytes] using h1

/-- Over connections of non-empty version the loop never calls the legacy encoder. -/
theorem pushLoop_old_zero (env : Env) (key : String) (m : Message) :
    ∀ (nodes : List Node) (ls : LoopSt),
      (∀ e ∈ nodes, (ls.conns e.Conn).Version ≠ "") →
      (pushLoop env key m nodes ls).2.2.countP Event.isOldBytes = 0 := by
  intro nodes
  induction nodes with
  | nil => intro ls _; simp [pushLoop]
  | cons e rest ih =>
    intro ls hv
    have h1 := selectMsg_old_zero env m (ls.conns e.Conn).Version ls.oldMsg ls.msg
      (hv e (List.mem_cons_self _ _))
    rcases hsel : selectMsg env m (ls.conns e.Conn).Version ls.oldMsg ls.msg with
      ⟨evs, (err | ⟨b, o, g⟩)⟩
    · rw [pushLoop_cons_err env key m e rest ls evs err hsel]
      rw [hsel] at h1
      simpa [List.countP_append, List.countP_cons, Event.isOldBytes] using h1
    · rw [hsel] at h1
      rcases hw : (ls.conns e.Conn).Write key b with c1 | f
      · rw [pushLoop_cons_ret env key m e rest ls evs _ _ _ c1 hsel hw]
        have h5 := ih ⟨o, g, ls.conns.set e.Conn c1⟩ (by
          intro x hx
          have hx1 := hv x (List.mem_cons_of_mem _ hx)
          simp only [Heap.set]
          split_ifs with hc
          · rw [(Write_ret _ _ _ _ hw).1, ← hc]; exact hx1
          · exact hx1)
        simp only [List.countP_append, List.countP_cons, List.countP_nil, Event.isOldBytes,
          Bool.false_eq_true, if_false, add_zero] at h1 h5 ⊢
        omega
      · rw [pushLoop_cons_fault env key m e rest ls evs _ _ _ f hsel hw]
        simpa [List.countP_append, List.countP_cons, Event.isOldBytes] using h1

/-- Over connections of empty version the loop never calls the current encoder. -/
theorem pushLoop_new_zero (env : Env) (key : String) (m : Message) :
    ∀ (nodes : List Node) (ls : LoopSt),
      (∀ e ∈ nodes, (ls.conns e.Conn).Version = "") →
      (pushLoop env key m nodes ls).2.2.countP Event.isBytes = 0 := by
  intro nodes
  induction nodes with
  | nil => intro ls _; simp [pushLoop]
  | cons e rest ih =>
    intro ls hv
    have h1 := selectMsg_new_zero env m (ls.conns e.Conn).Version ls.oldMsg ls.msg
      (hv e (List.mem_cons_self _ _))
    rcases hsel : selectMsg env m (ls.conns e.Conn).Version ls.oldMsg ls.msg with
      ⟨evs, (err | ⟨b, o, g⟩)⟩
    · rw [pushLoop_cons_err env key m e rest ls evs err hsel]
      rw [hsel] at h1
      simpa [List.countP_append, List.countP_cons, Event.isBytes] using h1
    · rw [hsel] at h1
      rcases hw : (ls.conns e.Conn).Write key b with c1 | f
      · rw [pushLoop_cons_ret env key m e rest ls evs _ _ _ c1 hsel hw]
        have h5 := ih ⟨o, g, ls.conns.set e.Conn c1⟩ (by
          intro x hx
          have hx1 := hv x (List.mem_cons_of_mem _ hx)
          simp only [Heap.set]
          split_ifs with hc
          · rw [(Write_ret _ _ _ _ hw).1, ← hc]; exact hx1
          · exact hx1)
        simp only [List.countP_append, List.countP_cons, List.countP_nil, Event.isBytes,
          Bool.false_eq_true, if_false, add_zero] at h1 h5 ⊢
        omega
      · rw [pushLoop_cons_fault env key m e rest ls evs _ _ _ f hsel hw]
        simpa [List.countP_append, List.countP_cons, Event.isBytes] using h1

/-- Every event of the loop is an encoder call on the message of the push, a
Write, a step to the next node, or the unlock of an error return. -/
theorem pushLoop_events_kind (env : Env) (key : String) (m : Message) :
    ∀ (nodes : List Node) (ls : LoopSt) (ev : Event),
      ev ∈ (pushLoop env key m nodes ls).2.2 →
      ev = .OldBytes m ∨ ev = .Bytes m ∨ ev.isWrite = true ∨ ev = .Next ∨ ev = .Unlock := by
  intro nodes
  induction nodes with
  | nil => intro ls ev h; simp [pushLoop] at h
  | cons e rest ih =>
    intro ls ev h
    have hs := selectMsg_events env m (ls.conns e.Conn).Version ls.oldMsg ls.msg ev
    rcases hsel : selectMsg env m (ls.conns e.Conn).Version ls.oldMsg ls.msg with
      ⟨evs, (err | ⟨b, o, g⟩)⟩
    · rw [pushLoop_cons_err env key m e rest ls evs err hsel] at h
      rw [hsel] at hs
      simp only [List.mem_append, List.mem_singleton] at h
      rcases h with h | h
      · rcases hs h with h1 | h1
        · exact Or.inl h1
        · exact Or.inr (Or.inl h1)
      · exact Or.inr (Or.inr (Or.inr (Or.inr h)))
    · rw [hsel] at hs
      rcases hw : (ls.conns e.Conn).Write key b with c1 | f
      · rw [pushLoop_cons_ret env key m e rest ls evs _ _ _ c1 hsel hw] at h
        simp only [List.mem_append, List.mem_cons, List.mem_singleton, List.mem_nil_iff,
          or_false] at h
        rcases h with (h | h | h) | h
        · rcases hs h with h1 | h1
          · exact Or.inl h1
          · exact Or.inr (Or.inl h1)
        · exact Or.inr (Or.inr (Or.inl (by rw [h]; rfl)))
        · exact Or.inr (Or.inr (Or.inr (Or.inl h)))
        · exact ih _ ev h
      · rw [pushLoop_cons_fault env key m e rest ls evs _ _ _ f hsel hw] at h
        simp only [List.mem_append, List.mem_singleton] at h
        rcases h with h | h
        · rcases hs h with h1 | h1
          · exact Or.inl h1
          · exact Or.inr (Or.inl h1)
        · exact Or.inr (Or.inr (Or.inl (by rw [h]; rfl)))

/-! ## The loop of PushMsg: open queues -/

/-- A successful send is to an open queue and leaves it open. -/
theorem Write_open (c c1 : Connection) (key : String) (b : ByteSlice)
    (h : c.Write key b = .ret c1) : c.open = true ∧ c1.open = true := by
  obtain ⟨_, q, hq, hc, hq1⟩ := Write_ret c c1 key b h
  simp [Connection.open, hq, hq1, hc]

/-- A send to an open queue succeeds. -/
theorem Write_of_open (c : Connection) (key : String) (b : ByteSlice)
    (h : c.open = true) : ∃ c1, c.Write key b = .ret c1 := by
  unfold Connection.open at h
  unfold Connection.Write
  rcases hq : c.Msgs with _ | q
  · simp [hq] at h
  · simp only [hq, Bool.not_eq_true'] at h
    simp [h]

/-- The loop never opens or closes a queue, whatever its outcome. -/
theorem pushLoop_open (env : Env) (key : String) (m : Message) :
    ∀ (nodes : List Node) (ls : LoopSt) (c : ConnId),
      ((pushLoop env key m nodes ls).2.1 c).open = (ls.conns c).open := by
  intro nodes
  induction nodes with
  | nil => intro ls c; simp [pushLoop]
  | cons e rest ih =>
    intro ls c
    rcases hsel : selectMsg env m (ls.conns e.Conn).Version ls.oldMsg ls.msg with
      ⟨evs, (err | ⟨b, o, g⟩)⟩
    · rw [pushLoop_cons_err env key m e rest ls evs err hsel]
    · rcases hw : (ls.conns e.Conn).Write key b with c1 | f
      · rw [pushLoop_cons_ret env key m e rest ls evs _ _ _ c1 hsel hw]
        simp only
        rw [ih]
        simp only [Heap.set]
        split_ifs with hc
        · rw [hc, (Write_open _ _ _ _ hw).1, (Write_open _ _ _ _ hw).2]
        · rfl
      · rw [pushLoop_cons_fault env key m e rest ls evs _ _ _ f hsel hw]

/-- Over connections with open queues the loop does not fault. -/
theorem pushLoop_no_fault (env : Env) (key : String) (m : Message) :
    ∀ (nodes : List Node) (ls : LoopSt),
      (∀ e ∈ nodes, (ls.conns e.Conn).open = true) →
      ∀ f, (pushLoop env key m nodes ls).1 ≠ .fault f := by
  intro nodes
  induction nodes with
  | nil => intro ls _ f; simp [pushLoop]
  | cons e rest ih =>
    intro ls ho f
    rcases hsel : selectMsg env m (ls.conns e.Conn).Version ls.oldMsg ls.msg with
      ⟨evs, (err | ⟨b, o, g⟩)⟩
    · rw [pushLoop_cons_err env key m e rest ls evs err hsel]
      simp
    · obtain ⟨c1, hw⟩ := Write_of_open (ls.conns e.Conn) key b (ho e (List.mem_cons_self _ _))
      rw [pushLoop_cons_ret env key m e rest ls evs _ _ _ c1 hsel hw]
      apply ih
      intro x hx
      simp only [Heap.set]
      split_ifs with hc
      · exact (Write_open _ _ _ _ hw).2
      · exact ho x (List.mem_cons_of_mem _ hx)

/-- The loop leaves a connection that no node holds as it was, whatever its
outcome. -/
theorem pushLoop_frame (env : Env) (key : String) (m : Message) (c : ConnId) :
    ∀ (nodes : List Node) (ls : LoopSt), (∀ e ∈ nodes, e.Conn ≠ c) →
      (pushLoop env key m nodes ls).2.1 c = ls.conns c := by
  intro nodes
  induction nodes with
  | nil => intro ls _; simp [pushLoop]
  | cons e rest ih =>
    intro ls hc
    rcases hsel : selectMsg env m (ls.conns e.Conn).Version ls.oldMsg ls.msg with
      ⟨evs, (err | ⟨b, o, g⟩)⟩
    · rw [pushLoop_cons_err env key m e rest ls evs err hsel]
    · rcases hw : (ls.conns e.Conn).Write key b with c1 | f
      · rw [pushLoop_cons_ret env key m e rest ls evs _ _ _ c1 hsel hw]
        simp only
        rw [ih _ (fun x hx => hc x (List.mem_cons_of_mem _ hx))]
        simp only [Heap.set]
        rw [if_neg (fun h => hc e (List.mem_cons_self _ _) h.symm)]
      · rw [pushLoop_cons_fault env key m e rest ls evs _ _ _ f hsel hw]

/-! ## PushMsg -/

/-- The four ways a PushMsg call goes: the save fails; or the save is
skipped or succeeds and the loop reaches the end of the list, stops at an
encoder error, or stops at a fault. -/
theorem PushMsg_cases (env : Env) (s : State) (key : String) (m : Message) (expire : Nat) :
    (∃ err, expire > 0 ∧
      env.SavePrivateMessage key m.Msg s.c.timeID.ID.1 expire = some err ∧
      PushMsg env s key m expire
        = ⟨(.ret (some err), stamped s m), { s with c := pushed s },
            [.Lock, .ID s.c.timeID.ID.1,
              .SavePrivateMessage key m.Msg s.c.timeID.ID.1 expire, .Unlock, .LogError]⟩) ∨
    ((expire > 0 → env.SavePrivateMessage key m.Msg s.c.timeID.ID.1 expire = none) ∧
      (((fanOut env s key m).1 = .ret none ∧
        PushMsg env s key m expire
          = ⟨(.ret none, stamped s m), { s with c := pushed s, conns := (fanOut env s key m).2.1 },
              [.Lock, .ID s.c.timeID.ID.1] ++ saveEvents s key m expire ++ [.Front]
                ++ (fanOut env s key m).2.2 ++ [.Unlock]⟩) ∨
       (∃ err, (fanOut env s key m).1 = .ret (some err) ∧
        PushMsg env s key m expire
          = ⟨(.ret (some err), stamped s m),
              { s with c := pushed s, conns := (fanOut env s key m).2.1 },
              [.Lock, .ID s.c.timeID.ID.1] ++ saveEvents s key m expire ++ [.Front]
                ++ (fanOut env s key m).2.2⟩) ∨
       (∃ f, (fanOut env s key m).1 = .fault f ∧
        PushMsg env s key m expire
          = ⟨(.fault f, stamped s m),
              { s with c := { pushed s with mutex := true }, conns := (fanOut env s key m).2.1 },
              [.Lock, .ID s.c.timeID.ID.1] ++ saveEvents s key m expire ++ [.Front]
                ++ (fanOut env s key m).2.2⟩))) := by
  unfold PushMsg fanOut saveEvents stamped pushed
  by_cases hx : expire > 0
  · rcases hsv : env.SavePrivateMessage key m.Msg s.c.timeID.ID.1 expire with _ | err
    · right
      refine ⟨fun _ => rfl, ?_⟩
      simp only [hx, if_true, hsv]
      rcases hl : pushLoop env key { m with MsgId := s.c.timeID.ID.1 } s.c.connections.nodes
        ⟨none, none, s.conns⟩ with ⟨(_ | err) | f, h, tr⟩
      · left; exact ⟨rfl, rfl⟩
      · right; left; exact ⟨err, rfl, rfl⟩
      · right; right; exact ⟨f, rfl, rfl⟩
    · left
      refine ⟨err, hx, rfl, ?_⟩
      simp only [hx, if_true, hsv]
      rfl
  · right
    refine ⟨fun h => absurd h hx, ?_⟩
    simp only [hx, if_false]
    rcases hl : pushLoop env key { m with MsgId := s.c.timeID.ID.1 } s.c.connections.nodes
      ⟨none, none, s.conns⟩ with ⟨(_ | err) | f, h, tr⟩
    · left; exact ⟨rfl, rfl⟩
    · right; left; exact ⟨err, rfl, rfl⟩
    · right; right; exact ⟨f, rfl, rfl⟩

/-- C3: when expire is positive and SavePrivateMessage returns the error e,
PushMsg returns exactly e; it performs the lock, the id assignment, the save,
the unlock and the error log only, so no Write to any connection and no call
of OldBytes or Bytes; every connection, so every outbound queue, and the
connection set are as they were. -/
theorem PushMsg_save_error (env : Env) (s : State) (key : String) (m : Message)
    (expire : Nat) (e : Error) (hx : expire > 0)
    (hs : env.SavePrivateMessage key m.Msg s.c.timeID.ID.1 expire = some e) :
    (PushMsg env s key m expire).ret.1 = .ret (some e) ∧
    (PushMsg env s key m expire).tr
      = [.Lock, .ID s.c.timeID.ID.1,
          .SavePrivateMessage key m.Msg s.c.timeID.ID.1 expire, .Unlock, .LogError] ∧
    (∀ c k b, Event.Write c k b ∉ (PushMsg env s key m expire).tr) ∧
    (∀ x, Event.OldBytes x ∉ (PushMsg env s key m expire).tr) ∧
    (∀ x, Event.Bytes x ∉ (PushMsg env s key m expire).tr) ∧
    (PushMsg env s key m expire).st.conns = s.conns ∧
    (PushMsg env s key m expire).st.c.connections = s.c.connections := by
  rcases PushMsg_cases env s key m expire with ⟨err, _, hs1, heq⟩ | ⟨hs1, _⟩
  · rw [hs] at hs1
    cases hs1
    rw [heq]
    simp [pushed]
  · rw [hs1 hx] at hs
    cases hs

/-- C3 at the channel with two connections and a message service that
fails: the error is returned and the queue of connection 1 stays empty. -/
theorem PushMsg_save_error_witness :
    (PushMsg envSaveFails st2 "k" ⟨[7], 0⟩ 60).ret.1 = .ret (some .ErrMessageSave) ∧
    (PushMsg envSaveFails st2 "k" ⟨[7], 0⟩ 60).st.conns = st2.conns :=
  ⟨(PushMsg_save_error envSaveFails st2 "k" ⟨[7], 0⟩ 60 .ErrMessageSave (by decide) rfl).1,
   (PushMsg_save_error envSaveFails st2 "k" ⟨[7], 0⟩ 60 .ErrMessageSave
      (by decide) rfl).2.2.2.2.2.1⟩

/-- When PushMsg returns nil its loop reached the end of the list, and its
Write events are those of the loop. -/
theorem PushMsg_nil_loop (env : Env) (s : State) (key : String) (m : Message)
    (expire : Nat) (h : (PushMsg env s key m expire).ret.1 = .ret none) :
    (fanOut env s key m).1 = .ret none ∧
    (PushMsg env s key m expire).ret.2 = stamped s m ∧
    (PushMsg env s key m expire).st
      = { s with c := pushed s, conns := (fanOut env s key m).2.1 } ∧
    (PushMsg env s key m expire).tr.filter Event.isWrite
      = (fanOut env s key m).2.2.filter Event.isWrite := by
  rcases PushMsg_cases env s key m expire with ⟨err, _, _, heq⟩ | ⟨_, h1 | h1 | h1⟩
  · rw [heq] at h; simp at h
  · obtain ⟨hl, heq⟩ := h1
    rw [heq]
    refine ⟨hl, rfl, rfl, ?_⟩
    have hsv : (saveEvents s key m expire).filter Event.isWrite = [] := by
      unfold saveEvents
      split_ifs <;> simp [Event.isWrite]
    simp only [List.filter_append, hsv]
    simp [Event.isWrite]
  · obtain ⟨err, _, heq⟩ := h1
    rw [heq] at h; simp at h
  · obtain ⟨f, _, heq⟩ := h1
    rw [heq] at h; simp at h

/-- When PushMsg returns nil its Write events are one per node, in the order
of the list, each with the encoding for the version of its connection. -/
theorem PushMsg_nil_writes (env : Env) (s : State) (key : String) (m : Message)
    (expire : Nat) (h : (PushMsg env s key m expire).ret.1 = .ret none) :
    (PushMsg env s key m expire).tr.filter Event.isWrite
      = s.c.connections.nodes.map (fun e => Event.Write e.Conn key
          (encoding env (stamped s m) (s.conns e.Conn).Version)) := by
  obtain ⟨hl, _, _, hf⟩ := PushMsg_nil_loop env s key m expire h
  rw [hf]
  exact (pushLoop_ret_nil env key (stamped s m) s.c.connections.nodes
    ⟨none, none, s.conns⟩ ⟨Or.inl rfl, Or.inl rfl⟩ hl).1

/-- C4: when PushMsg returns nil, the message carries the id assigned in the
call; the Write events of the call are, in the order of the list, exactly one
per attached node, tagged with the key of the call, with OldBytes of that
message for a connection of empty version and Bytes of it otherwise; every
allocated queue has got exactly the payloads of the nodes holding its
connection; and the connection set is as it was. -/
theorem PushMsg_delivers (env : Env) (s : State) (key : String) (m : Message)
    (expire : Nat) (h : (PushMsg env s key m expire).ret.1 = .ret none) :
    (PushMsg env s key m expire).ret.2 = { m with MsgId := s.c.timeID.ID.1 } ∧
    (PushMsg env s key m expire).tr.filter Event.isWrite
      = s.c.connections.nodes.map (fun e => Event.Write e.Conn key
          (if (s.conns e.Conn).Version = ""
            then (env.OldBytes (PushMsg env s key m expire).ret.2).1
            else (env.Bytes (PushMsg env s key m expire).ret.2).1)) ∧
    (∀ c q, (s.conns c).Msgs = some q →
      ((PushMsg env s key m expire).st.conns c).Msgs
        = some { q with buf := (q.buf ++ (s.c.connections.nodes.filter (fun e => e.Conn = c)).map
            (fun _ => (key, encoding env (PushMsg env s key m expire).ret.2
              (s.conns c).Version))) }) ∧
    (∀ c, (∀ e ∈ s.c.connections.nodes, e.Conn ≠ c) →
      (PushMsg env s key m expire).st.conns c = s.conns c) ∧
    (PushMsg env s key m expire).st.c.connections = s.c.connections := by
  obtain ⟨hl, hm, hst, _⟩ := PushMsg_nil_loop env s key m expire h
  obtain ⟨_, l2, l3⟩ := pushLoop_ret_nil env key (stamped s m) s.c.connections.nodes
    ⟨none, none, s.conns⟩ ⟨Or.inl rfl, Or.inl rfl⟩ hl
  refine ⟨hm, ?_, ?_, ?_, by rw [hst]; rfl⟩
  · rw [PushMsg_nil_writes env s key m expire h, hm]
    rfl
  · intro c q hq
    rw [hst, hm]
    exact l3 c q hq
  · intro c hc
    rw [hst]
    apply l2 c
    rw [List.filter_eq_nil_iff]
    intro e he
    simpa using hc e he

/-- C4 at the channel with the legacy connection 1 and the current-protocol
connection 2: each gets its encoding of the message with id 1. -/
theorem PushMsg_delivers_witness :
    (PushMsg envOK st2 "k" ⟨[7], 0⟩ 0).ret.1 = .ret none ∧
    (PushMsg envOK st2 "k" ⟨[7], 0⟩ 0).tr.filter Event.isWrite
      = [.Write 1 "k" (some [0, 7]), .Write 2 "k" (some [1, 7])] :=
  ⟨by decide,
   (PushMsg_delivers envOK st2 "k" ⟨[7], 0⟩ 0 (by decide)).2.1.trans (by decide)⟩

/-- The events of a PushMsg call that satisfy a predicate which is false on
the lock, id, save, iteration start, unlock and log events are events of its
loop. -/
theorem PushMsg_countP_le (env : Env) (s : State) (key : String) (m : Message) (expire : Nat)
    (p : Event → Bool) (h1 : p .Lock = false) (h2 : ∀ i, p (.ID i) = false)
    (h3 : ∀ k b i x, p (.SavePrivateMessage k b i x) = false) (h4 : p .Front = false)
    (h5 : p .Unlock = false) (h6 : p .LogError = false) :
    (PushMsg env s key m expire).tr.countP p ≤ (fanOut env s key m).2.2.countP p := by
  have hsv : (saveEvents s key m expire).countP p = 0 := by
    unfold saveEvents
    split_ifs <;> simp [List.countP_cons, h3]
  rcases PushMsg_cases env s key m expire with ⟨err, _, _, heq⟩ | ⟨_, h | h | h⟩
  · rw [heq]; simp [List.countP_cons, h1, h2, h3, h5, h6]
  · rw [h.2]; simp [List.countP_append, List.countP_cons, h1, h2, h4, h5, hsv]
  · obtain ⟨err, _, heq⟩ := h
    rw [heq]; simp [List.countP_append, List.countP_cons, h1, h2, h4, hsv]
  · obtain ⟨f, _, heq⟩ := h
    rw [heq]; simp [List.countP_append, List.countP_cons, h1, h2, h4, hsv]

/-- A Write is no encoder call. -/
theorem not_enc_of_isWrite (ev : Event) (m : Message) (h : ev.isWrite = true) :
    (∀ x, ev = Event.OldBytes x → x = m) ∧ (∀ x, ev = Event.Bytes x → x = m) := by
  cases ev <;> simp [Event.isWrite] at h ⊢

/-- A save is no encoder call. -/
theorem not_enc_of_isSave (ev : Event) (m : Message) (h : ev.isSave = true) :
    (∀ x, ev = Event.OldBytes x → x = m) ∧ (∀ x, ev = Event.Bytes x → x = m) := by
  cases ev <;> simp [Event.isSave] at h ⊢

/-- A Write is no save. -/
theorem not_isSave_of_isWrite (ev : Event) (h : ev.isWrite = true) : ev.isSave = false := by
  cases ev <;> simp [Event.isWrite, Event.isSave] at h ⊢

/-- The events of the persistence step are saves. -/
theorem saveEvents_isSave (s : State) (key : String) (m : Message) (expire : Nat)
    (ev : Event) (hev : ev ∈ saveEvents s key m expire) : ev.isSave = true := by
  unfold saveEvents at hev
  split_ifs at hev
  · simp only [List.mem_singleton] at hev
    rw [hev]; rfl
  · simp at hev

/-- The loop never calls SavePrivateMessage. -/
theorem pushLoop_no_save (env : Env) (key : String) (m : Message) (nodes : List Node)
    (ls : LoopSt) : (pushLoop env key m nodes ls).2.2.countP Event.isSave = 0 := by
  rw [List.countP_eq_zero]
  intro ev hev
  rcases pushLoop_events_kind env key m nodes ls ev hev with h | h | h | h | h
  · simp [h, Event.isSave]
  · simp [h, Event.isSave]
  · simp [not_isSave_of_isWrite ev h]
  · simp [h, Event.isSave]
  · simp [h, Event.isSave]

/-- C7: SavePrivateMessage is called by PushMsg exactly when expire is
positive. With expire 0 no event of the call is a save. With expire positive
the call starts with the lock, the id assignment and the save of
(key, m.Msg, id, expire), and no later event is a save, so the save is called
exactly once and comes before every Write of the call. The id saved is the
id of the message the call leaves, and every encoder call of the call is on
that message. -/
theorem PushMsg_save_iff_expire (env : Env) (s : State) (key : String) (m : Message)
    (expire : Nat) :
    (expire = 0 → (PushMsg env s key m expire).tr.countP Event.isSave = 0) ∧
    (expire > 0 →
      (PushMsg env s key m expire).tr.countP Event.isSave = 1 ∧
      ∃ rest, (PushMsg env s key m expire).tr
          = [.Lock, .ID s.c.timeID.ID.1,
              .SavePrivateMessage key m.Msg s.c.timeID.ID.1 expire] ++ rest ∧
        rest.countP Event.isSave = 0 ∧
        ∀ pre post c k b, (PushMsg env s key m expire).tr = pre ++ Event.Write c k b :: post →
          Event.SavePrivateMessage key m.Msg s.c.timeID.ID.1 expire ∈ pre) ∧
    (PushMsg env s key m expire).ret.2 = { m with MsgId := s.c.timeID.ID.1 } ∧
    (∀ x, Event.OldBytes x ∈ (PushMsg env s key m expire).tr →
      x = (PushMsg env s key m expire).ret.2) ∧
    (∀ x, Event.Bytes x ∈ (PushMsg env s key m expire).tr →
      x = (PushMsg env s key m expire).ret.2) := by
  have hloop : (fanOut env s key m).2.2.countP Event.isSave = 0 :=
    pushLoop_no_save env key (stamped s m) s.c.connections.nodes ⟨none, none, s.conns⟩
  have hkind := pushLoop_events_kind env key (stamped s m) s.c.connections.nodes
    ⟨none, none, s.conns⟩
  have hpre : ∀ (rest : List Event) (pre post : List Event) (c : ConnId) (k : String)
      (b : ByteSlice),
      [Event.Lock, .ID s.c.timeID.ID.1,
        .SavePrivateMessage key m.Msg s.c.timeID.ID.1 expire] ++ rest
        = pre ++ Event.Write c k b :: post →
      Event.SavePrivateMessage key m.Msg s.c.timeID.ID.1 expire ∈ pre := by
    intro rest pre post c k b h
    rcases pre with _ | ⟨a1, _ | ⟨a2, _ | ⟨a3, pre1⟩⟩⟩
    · simp at h
    · simp at h
    · simp at h
    · simp only [List.cons_append, List.nil_append, List.cons.injEq] at h
      simp [← h.2.2.1]
  have hret : (PushMsg env s key m expire).ret.2 = { m with MsgId := s.c.timeID.ID.1 } := by
    rcases PushMsg_cases env s key m expire with ⟨err, _, _, heq⟩ | ⟨_, h | h | h⟩
    · rw [heq]; rfl
    · rw [h.2]; rfl
    · obtain ⟨err, _, heq⟩ := h; rw [heq]; rfl
    · obtain ⟨f, _, heq⟩ := h; rw [heq]; rfl
  have henc : ∀ ev ∈ (PushMsg env s key m expire).tr,
      (∀ x, ev = Event.OldBytes x → x = stamped s m) ∧
      (∀ x, ev = Event.Bytes x → x = stamped s m) := by
    intro ev hev
    have hl : ev ∈ (fanOut env s key m).2.2 →
        (∀ x, ev = Event.OldBytes x → x = stamped s m) ∧
        (∀ x, ev = Event.Bytes x → x = stamped s m) := by
      intro hin
      rcases hkind ev hin with h | h | h | h | h
      · subst h; simp
      · subst h; simp
      · exact not_enc_of_isWrite ev _ h
      · subst h; simp
      · subst h; simp
    have hs : ev ∈ saveEvents s key m expire →
        (∀ x, ev = Event.OldBytes x → x = stamped s m) ∧
        (∀ x, ev = Event.Bytes x → x = stamped s m) := fun hin =>
      not_enc_of_isSave ev _ (saveEvents_isSave s key m expire ev hin)
    rcases PushMsg_cases env s key m expire with ⟨err, _, _, heq⟩ | ⟨_, h | h | h⟩
    · rw [heq] at hev
      simp only [List.mem_cons, List.mem_singleton, List.mem_nil_iff, or_false] at hev
      rcases hev with h | h | h | h | h <;> subst h <;> simp
    · rw [h.2] at hev
      simp only [List.mem_append, List.mem_cons, List.mem_singleton, List.mem_nil_iff,
        or_false] at hev
      rcases hev with ((((h | h) | h) | h) | h) | h
      · subst h; simp
      · subst h; simp
      · exact hs h
      · subst h; simp
      · exact hl h
      · subst h; simp
    · obtain ⟨err, _, heq⟩ := h
      rw [heq] at hev
      simp only [List.mem_append, List.mem_cons, List.mem_singleton, List.mem_nil_iff,
        or_false] at hev
      rcases hev with (((h | h) | h) | h) | h
      · subst h; simp
      · subst h; simp
      · exact hs h
      · subst h; simp
      · exact hl h
    · obtain ⟨f, _, heq⟩ := h
      rw [heq] at hev
      simp only [List.mem_append, List.mem_cons, List.mem_singleton, List.mem_nil_iff,
        or_false] at hev
      rcases hev with (((h | h) | h) | h) | h
      · subst h; simp
      · subst h; simp
      · exact hs h
      · subst h; simp
      · exact hl h
  refine ⟨?_, ?_, hret, ?_, ?_⟩
  · intro hx
    have hle := PushMsg_countP_le env s key m expire Event.isSave rfl (fun _ => rfl)
    subst hx
    rcases PushMsg_cases env s key m 0 with ⟨err, h0, _, _⟩ | ⟨_, h | h | h⟩
    · exact absurd h0 (by decide)
    · rw [h.2]
      simp only [List.countP_append, hloop, saveEvents]
      simp [List.countP_cons, Event.isSave]
    · obtain ⟨err, _, heq⟩ := h
      rw [heq]
      simp only [List.countP_append, hloop, saveEvents]
      simp [List.countP_cons, Event.isSave]
    · obtain ⟨f, _, heq⟩ := h
      rw [heq]
      simp only [List.countP_append, hloop, saveEvents]
      simp [List.countP_cons, Event.isSave]
  · intro hx
    have hse : saveEvents s key m expire
        = [.SavePrivateMessage key m.Msg s.c.timeID.ID.1 expire] := by
      simp [saveEvents, hx]
    have key1 : ∃ rest, (PushMsg env s key m expire).tr
          = [.Lock, .ID s.c.timeID.ID.1,
              .SavePrivateMessage key m.Msg s.c.timeID.ID.1 expire] ++ rest ∧
        rest.countP Event.isSave = 0 := by
      rcases PushMsg_cases env s key m expire with ⟨err, _, _, heq⟩ | ⟨_, h | h | h⟩
      · exact ⟨[.Unlock, .LogError], by rw [heq]; rfl, by decide⟩
      · refine ⟨[.Front] ++ (fanOut env s key m).2.2 ++ [.Unlock], by rw [h.2, hse]; simp, ?_⟩
        simp only [List.countP_append, hloop]
        simp [List.countP_cons, Event.isSave]
      · obtain ⟨err, _, heq⟩ := h
        refine ⟨[.Front] ++ (fanOut env s key m).2.2, by rw [heq, hse]; simp, ?_⟩
        simp only [List.countP_append, hloop]
        simp [List.countP_cons, Event.isSave]
      · obtain ⟨f, _, heq⟩ := h
        refine ⟨[.Front] ++ (fanOut env s key m).2.2, by rw [heq, hse]; simp, ?_⟩
        simp only [List.countP_append, hloop]
        simp [List.countP_cons, Event.isSave]
    obtain ⟨rest, hr1, hr2⟩ := key1
    refine ⟨?_, rest, hr1, hr2, ?_⟩
    · rw [hr1, List.countP_append, hr2]
      simp [List.countP_cons, Event.isSave]
    · intro pre post c k b h
      rw [hr1] at h
      exact hpre rest pre post c k b h
  · intro x hx
    rw [hret]
    exact (henc _ hx).1 x rfl
  · intro x hx
    rw [hret]
    exact (henc _ hx).2 x rfl

/-- C7 at the channel with two connections: with expire 60 the save is the
third event and the only save; with expire 0 there is none. -/
theorem PushMsg_save_iff_expire_witness :
    (PushMsg envOK st2 "k" ⟨[7], 0⟩ 60).tr.countP Event.isSave = 1 ∧
    (PushMsg envOK st2 "k" ⟨[7], 0⟩ 0).tr.countP Event.isSave = 0 :=
  ⟨((PushMsg_save_iff_expire envOK st2 "k" ⟨[7], 0⟩ 60).2.1 (by decide)).1,
   (PushMsg_save_iff_expire envOK st2 "k" ⟨[7], 0⟩ 0).1 rfl⟩

/-- C9, the claim as stated fails: with a current encoder that gives a nil
byte slice and no error, a push to the two current-protocol connections 2 and
3 returns nil and calls Bytes twice, once for each connection, not at most
once. -/
theorem PushMsg_encoders_once_counterexample :
    (envNilBytes.Bytes ⟨[7], 1⟩ = (none, none)) ∧
    (PushMsg envNilBytes st23 "k" ⟨[7], 0⟩ 0).ret.1 = .ret none ∧
    written (PushMsg envNilBytes st23 "k" ⟨[7], 0⟩ 0).tr = [2, 3] ∧
    (PushMsg envNilBytes st23 "k" ⟨[7], 0⟩ 0).tr.countP Event.isBytes = 2 ∧
    ¬ ((PushMsg envNilBytes st23 "k" ⟨[7], 0⟩ 0).tr.countP Event.isBytes ≤ 1) := by
  decide

/-- C9 as amended: within one PushMsg call, whatever the number of attached
connections that need it, the legacy encoder OldBytes is called at most once
when it gives a non-nil byte slice whenever it gives no error, and the
current encoder Bytes is called at most once under the same condition on it
(the memo of an encoding is tested against nil, so a nil result without an
error is not memoized); and an encoder is not called at all when no attached
connection uses its protocol. -/
theorem PushMsg_encoders_once (env : Env) (s : State) (key : String) (m : Message)
    (expire : Nat) :
    (OldNonNil env { m with MsgId := s.c.timeID.ID.1 } →
      (PushMsg env s key m expire).tr.countP Event.isOldBytes ≤ 1) ∧
    (NewNonNil env { m with MsgId := s.c.timeID.ID.1 } →
      (PushMsg env s key m expire).tr.countP Event.isBytes ≤ 1) ∧
    ((∀ e ∈ s.c.connections.nodes, (s.conns e.Conn).Version ≠ "") →
      (PushMsg env s key m expire).tr.countP Event.isOldBytes = 0) ∧
    ((∀ e ∈ s.c.connections.nodes, (s.conns e.Conn).Version = "") →
      (PushMsg env s key m expire).tr.countP Event.isBytes = 0) := by
  have hold := PushMsg_countP_le env s key m expire Event.isOldBytes rfl (fun _ => rfl)
    (fun _ _ _ _ => rfl) rfl rfl rfl
  have hnew := PushMsg_countP_le env s key m expire Event.isBytes rfl (fun _ => rfl)
    (fun _ _ _ _ => rfl) rfl rfl rfl
  refine ⟨?_, ?_, ?_, ?_⟩
  · intro hn
    have h1 := pushLoop_old_budget env key (stamped s m) hn s.c.connections.nodes
      ⟨none, none, s.conns⟩
    simp only [budget, if_true] at h1
    exact le_trans hold h1
  · intro hn
    have h2 := pushLoop_new_budget env key (stamped s m) hn s.c.connections.nodes
      ⟨none, none, s.conns⟩
    simp only [budget, if_true] at h2
    exact le_trans hnew h2
  · intro hv
    have h1 := pushLoop_old_zero env key (stamped s m) s.c.connections.nodes
      ⟨none, none, s.conns⟩ hv
    unfold fanOut at hold
    omega
  · intro hv
    have h1 := pushLoop_new_zero env key (stamped s m) s.c.connections.nodes
      ⟨none, none, s.conns⟩ hv
    unfold fanOut at hnew
    omega

/-- C9 as amended, at the channel with the two current-protocol connections
2 and 3: the push enqueues for both, with one call of Bytes only, its result
being memoized for the second connection, and with no call of OldBytes. -/
theorem PushMsg_encoders_once_witness :
    written (PushMsg envOK st23 "k" ⟨[7], 0⟩ 0).tr = [2, 3] ∧
    (PushMsg envOK st23 "k" ⟨[7], 0⟩ 0).tr.countP Event.isBytes ≤ 1 ∧
    (PushMsg envOK st23 "k" ⟨[7], 0⟩ 0).tr.countP Event.isBytes = 1 ∧
    (PushMsg envOK st23 "k" ⟨[7], 0⟩ 0).tr.countP Event.isOldBytes = 0 :=
  ⟨by decide,
   (PushMsg_encoders_once envOK st23 "k" ⟨[7], 0⟩ 0).2.1 (fun _ => by simp [envOK]),
   by decide,
   (PushMsg_encoders_once envOK st23 "k" ⟨[7], 0⟩ 0).2.2.1 (by decide)⟩

/-- The connections written by the loop when it reaches the end of the list
are the connections of the nodes, front to back. -/
theorem written_of_filter (tr : List Event) (nodes : List Node) (key : String)
    (f : Node → ByteSlice)
    (h : tr.filter Event.isWrite = nodes.map (fun e => Event.Write e.Conn key (f e))) :
    written tr = nodes.map Node.Conn := by
  have hw : ∀ l : List Event, written l = written (l.filter Event.isWrite) := by
    intro l
    induction l with
    | nil => rfl
    | cons a l ih =>
      cases a <;> simp [written, Event.isWrite, List.filter_cons] at ih ⊢ <;> exact ih
  rw [hw, h]
  clear h hw
  induction nodes with
  | nil => rfl
  | cons e rest ih =>
    simp only [written, List.map_cons, List.filterMap_cons] at ih ⊢
    rw [ih]

/-- PushMsg leaves the connection set, the counter, the version of every
connection and the open or closed state of every queue as they were. -/
theorem PushMsg_frame (env : Env) (s : State) (key : String) (m : Message) (expire : Nat) :
    (PushMsg env s key m expire).st.c.connections = s.c.connections ∧
    (PushMsg env s key m expire).st.ConnStat = s.ConnStat ∧
    (∀ c, ((PushMsg env s key m expire).st.conns c).open = (s.conns c).open) ∧
    (∀ c, ((PushMsg env s key m expire).st.conns c).Version = (s.conns c).Version) := by
  have ho := pushLoop_open env key (stamped s m) s.c.connections.nodes ⟨none, none, s.conns⟩
  have hv := pushLoop_version env key (stamped s m) s.c.connections.nodes
    ⟨none, none, s.conns⟩
  rcases PushMsg_cases env s key m expire with ⟨err, _, _, heq⟩ | ⟨_, h | h | h⟩
  · rw [heq]; exact ⟨rfl, rfl, fun _ => rfl, fun _ => rfl⟩
  · rw [h.2]; exact ⟨rfl, rfl, ho, hv⟩
  · obtain ⟨err, _, heq⟩ := h
    rw [heq]; exact ⟨rfl, rfl, ho, hv⟩
  · obtain ⟨f, _, heq⟩ := h
    rw [heq]; exact ⟨rfl, rfl, ho, hv⟩

/-- When every attached connection has an open queue, PushMsg returns. -/
theorem PushMsg_no_fault (env : Env) (s : State) (key : String) (m : Message) (expire : Nat)
    (ho : ∀ e ∈ s.c.connections.nodes, (s.conns e.Conn).open = true) (f : Fault) :
    (PushMsg env s key m expire).ret.1 ≠ .fault f := by
  have hl := pushLoop_no_fault env key (stamped s m) s.c.connections.nodes
    ⟨none, none, s.conns⟩ ho
  rcases PushMsg_cases env s key m expire with ⟨err, _, _, heq⟩ | ⟨_, h | h | h⟩
  · rw [heq]; simp
  · rw [h.2]; simp
  · obtain ⟨err, _, heq⟩ := h
    rw [heq]; simp
  · obtain ⟨f1, hf, _⟩ := h
    exact absurd hf (hl f1)

/-- PushMsg leaves a connection that no node holds as it was. -/
theorem PushMsg_frame_conn (env : Env) (s : State) (key : String) (m : Message)
    (expire : Nat) (c : ConnId) (hc : ∀ e ∈ s.c.connections.nodes, e.Conn ≠ c) :
    (PushMsg env s key m expire).st.conns c = s.conns c := by
  have hl := pushLoop_frame env key (stamped s m) c s.c.connections.nodes
    ⟨none, none, s.conns⟩ hc
  rcases PushMsg_cases env s key m expire with ⟨err, _, _, heq⟩ | ⟨_, h | h | h⟩
  · rw [heq]
  · rw [h.2]; exact hl
  · obtain ⟨err, _, heq⟩ := h
    rw [heq]; exact hl
  · obtain ⟨f, _, heq⟩ := h
    rw [heq]; exact hl

/-! ## AddConn -/

/-- AddConn when the heartbeat write succeeds below capacity. -/
theorem AddConn_eq_ok (env : Env) (s : State) (key : String) (conn : ConnId)
    (hcap : ¬ ((s.c.connections.Len : Int) + 1 > env.Conf.MaxSubscriberPerChannel))
    (hw : env.connWrite conn env.HeartbeatReply = none) :
    AddConn env s key conn =
      ⟨(some (s.c.connections.PushFront conn).2, none),
        { c := { s.c with mutex := false, connections := (s.c.connections.PushFront conn).1 },
          conns := s.conns.set conn
            { s.conns conn with
              Msgs := some { cap := env.Conf.MsgBufNum, buf := [], closed := false } },
          ConnStat := s.ConnStat + 1 },
        [.Lock, .Len s.c.connections.Len, .ConnWrite conn env.HeartbeatReply,
          .MakeMsgs conn env.Conf.MsgBufNum, .HandleWrite conn key,
          .PushFront (s.c.connections.PushFront conn).2 conn, .Unlock, .IncrAdd,
          .Len (s.c.connections.PushFront conn).1.Len, .LogInfo]⟩ := by
  unfold AddConn
  simp only [if_neg hcap, hw]

/-- AddConn when the heartbeat write fails below capacity. -/
theorem AddConn_eq_err (env : Env) (s : State) (key : String) (conn : ConnId) (e : Error)
    (hcap : ¬ ((s.c.connections.Len : Int) + 1 > env.Conf.MaxSubscriberPerChannel))
    (hw : env.connWrite conn env.HeartbeatReply = some e) :
    AddConn env s key conn =
      ⟨(none, some e), { s with c := { s.c with mutex := false } },
        [.Lock, .Len s.c.connections.Len, .ConnWrite conn env.HeartbeatReply, .Unlock,
          .LogError]⟩ := by
  unfold AddConn
  simp only [if_neg hcap, hw]

/-- AddConn at capacity. -/
theorem AddConn_eq_full (env : Env) (s : State) (key : String) (conn : ConnId)
    (hcap : (s.c.connections.Len : Int) + 1 > env.Conf.MaxSubscriberPerChannel) :
    AddConn env s key conn =
      ⟨(none, some .ErrMaxConn), { s with c := { s.c with mutex := false } },
        [.Lock, .Len s.c.connections.Len, .Unlock, .LogError]⟩ := by
  unfold AddConn
  simp only [if_pos hcap]

/-- C1: when the size of the connection set plus one exceeds the configured
maximum, AddConn returns (nil, ErrMaxConn), leaves the connection set, every
connection (so no queue is allocated) and the counter as they were, and
performs only the lock, the length read, the unlock and the error log: no
write to the connection, no queue allocation, no writer start, no insertion
and no counter increment. -/
theorem AddConn_capacity_rejects (env : Env) (s : State) (key : String) (conn : ConnId)
    (h : (s.c.connections.Len : Int) + 1 > env.Conf.MaxSubscriberPerChannel) :
    (AddConn env s key conn).ret = (none, some .ErrMaxConn) ∧
    (AddConn env s key conn).st.c.connections = s.c.connections ∧
    (AddConn env s key conn).st.c.connections.Len = s.c.connections.Len ∧
    (AddConn env s key conn).st.conns = s.conns ∧
    (AddConn env s key conn).st.ConnStat = s.ConnStat ∧
    (AddConn env s key conn).tr = [.Lock, .Len s.c.connections.Len, .Unlock, .LogError] ∧
    (∀ x b, Event.ConnWrite x b ∉ (AddConn env s key conn).tr) ∧
    (∀ x n, Event.MakeMsgs x n ∉ (AddConn env s key conn).tr) ∧
    (∀ x k, Event.HandleWrite x k ∉ (AddConn env s key conn).tr) ∧
    (∀ n x, Event.PushFront n x ∉ (AddConn env s key conn).tr) ∧
    Event.IncrAdd ∉ (AddConn env s key conn).tr := by
  rw [AddConn_eq_full env s key conn h]
  simp

/-- C1 at the channel with two connections and a maximum of two. -/
theorem AddConn_capacity_rejects_witness :
    ((st2.c.connections.Len : Int) + 1 > envOK.Conf.MaxSubscriberPerChannel) ∧
    (AddConn envOK st2 "k" 3).ret = (none, some .ErrMaxConn) ∧
    (AddConn envOK st2 "k" 3).st.c.connections.Len = 2 :=
  ⟨by decide, (AddConn_capacity_rejects envOK st2 "k" 3 (by decide)).1, by decide⟩

/-- C2: below capacity, when the first heartbeat write returns the error e,
AddConn returns (nil, e), leaves the connection set, every connection (so no
queue is allocated) and the counter as they were, performs no queue
allocation, no writer start, no insertion and no counter increment, and a
following PushMsg enqueues nothing for the connection (unless it was attached
before the call already). -/
theorem AddConn_heartbeat_error (env : Env) (s : State) (key : String) (conn : ConnId)
    (e : Error)
    (hcap : ¬ ((s.c.connections.Len : Int) + 1 > env.Conf.MaxSubscriberPerChannel))
    (hw : env.connWrite conn env.HeartbeatReply = some e) :
    (AddConn env s key conn).ret = (none, some e) ∧
    (AddConn env s key conn).st.c.connections = s.c.connections ∧
    (AddConn env s key conn).st.c.connections.Len = s.c.connections.Len ∧
    (AddConn env s key conn).st.conns = s.conns ∧
    (AddConn env s key conn).st.ConnStat = s.ConnStat ∧
    (AddConn env s key conn).tr
      = [.Lock, .Len s.c.connections.Len, .ConnWrite conn env.HeartbeatReply,
          .Unlock, .LogError] ∧
    (∀ x n, Event.MakeMsgs x n ∉ (AddConn env s key conn).tr) ∧
    (∀ x k, Event.HandleWrite x k ∉ (AddConn env s key conn).tr) ∧
    (∀ n x, Event.PushFront n x ∉ (AddConn env s key conn).tr) ∧
    Event.IncrAdd ∉ (AddConn env s key conn).tr ∧
    ((∀ x ∈ s.c.connections.nodes, x.Conn ≠ conn) →
      ∀ (env1 : Env) (key1 : String) (m : Message) (expire : Nat) (k : String)
        (b : ByteSlice),
        Event.Write conn k b ∉ (PushMsg env1 (AddConn env s key conn).st key1 m expire).tr) := by
  have hst : (AddConn env s key conn).st.c.connections = s.c.connections := by
    rw [AddConn_eq_err env s key conn e hcap hw]
  have heq := AddConn_eq_err env s key conn e hcap hw
  refine ⟨by simp [heq], hst, by simp [heq], by simp [heq], by simp [heq], by simp [heq],
    by simp [heq], by simp [heq], by simp [heq], by simp [heq], ?_⟩
  intro hfresh env1 key1 m expire k b hmem
  obtain ⟨⟨x, hx, hxc⟩, _⟩ := PushMsg_write_mem env1 _ key1 m expire conn k b hmem
  rw [hst] at hx
  exact hfresh x hx hxc

/-- C2 at the channel with one connection and a transport that fails. -/
theorem AddConn_heartbeat_error_witness :
    (AddConn envWriteFails st1 "k" 2).ret = (none, some (.other 7)) ∧
    (AddConn envWriteFails st1 "k" 2).st.c.connections = st1.c.connections :=
  ⟨(AddConn_heartbeat_error envWriteFails st1 "k" 2 (.other 7) (by decide) rfl).1,
   (AddConn_heartbeat_error envWriteFails st1 "k" 2 (.other 7) (by decide) rfl).2.1⟩

/-- C5: below capacity, when the first heartbeat write succeeds, AddConn
returns a handle and a nil error; the heartbeat write comes before the
insertion in the events of the call; the new node, holding the connection
and identified by the returned handle, is added to the nodes that were
there, which stay in their order, so the size grows by one, and the new node
is the one found under the returned handle when the handles in the list are
older than the next handle, as they are in every state a channel reaches;
the queue of the connection is a new empty open queue of capacity MsgBufNum,
every other connection is untouched; the counter is incremented exactly
once. -/
theorem AddConn_success (env : Env) (s : State) (key : String) (conn : ConnId)
    (hcap : (s.c.connections.Len : Int) + 1 ≤ env.Conf.MaxSubscriberPerChannel)
    (hw : env.connWrite conn env.HeartbeatReply = none) :
    ∃ node : NodeId,
      (AddConn env s key conn).ret = (some node, none) ∧
      (AddConn env s key conn).tr
        = [.Lock, .Len s.c.connections.Len, .ConnWrite conn env.HeartbeatReply,
            .MakeMsgs conn env.Conf.MsgBufNum, .HandleWrite conn key,
            .PushFront node conn, .Unlock, .IncrAdd, .Len (s.c.connections.Len + 1),
            .LogInfo] ∧
      (AddConn env s key conn).st.c.connections.nodes
        = s.c.connections.nodes ++ [⟨node, conn, true⟩] ∧
      (AddConn env s key conn).st.c.connections.Len = s.c.connections.Len + 1 ∧
      (⟨node, conn, true⟩ : Node) ∈ (AddConn env s key conn).st.c.connections.nodes ∧
      ((∀ x ∈ s.c.connections.nodes, x.id < s.c.connections.fresh) →
        (AddConn env s key conn).st.c.connections.nodes.find? (fun x => x.id = node)
          = some ⟨node, conn, true⟩) ∧
      (∀ x ∈ s.c.connections.nodes, x ∈ (AddConn env s key conn).st.c.connections.nodes) ∧
      ((AddConn env s key conn).st.conns conn).Msgs
        = some { cap := env.Conf.MsgBufNum, buf := [], closed := false } ∧
      ((AddConn env s key conn).st.conns conn).Version = (s.conns conn).Version ∧
      (∀ x, x ≠ conn → (AddConn env s key conn).st.conns x = s.conns x) ∧
      (AddConn env s key conn).st.ConnStat = s.ConnStat + 1 ∧
      (AddConn env s key conn).tr.count .IncrAdd = 1 := by
  have hcap1 : ¬ ((s.c.connections.Len : Int) + 1 > env.Conf.MaxSubscriberPerChannel) := by
    omega
  refine ⟨s.c.connections.fresh, ?_⟩
  rw [AddConn_eq_ok env s key conn hcap1 hw]
  refine ⟨rfl, by simp [Hlist.PushFront, Hlist.Len], rfl, by simp [Hlist.PushFront, Hlist.Len],
    by simp [Hlist.PushFront], ?_, ?_, by simp [Heap.set], by simp [Heap.set], ?_, rfl,
    by simp [List.count_cons]⟩
  · intro hfresh
    simp only [Hlist.PushFront]
    rw [List.find?_append]
    have hnone : s.c.connections.nodes.find? (fun x => x.id = s.c.connections.fresh)
        = none := by
      rw [List.find?_eq_none]
      intro x hx
      simpa using Nat.ne_of_lt (hfresh x hx)
    rw [hnone]
    simp
  · intro x hx
    exact List.mem_append_left _ hx
  · intro x hx
    simp [Heap.set, hx]

/-- C5 at the new channel: the first connection is attached. -/
theorem AddConn_success_witness :
    ∃ node : NodeId,
      (AddConn envOK st0 "k" 1).ret = (some node, none) ∧
      (AddConn envOK st0 "k" 1).st.c.connections.nodes = [⟨node, 1, true⟩] :=
  (AddConn_success envOK st0 "k" 1 (by decide) rfl).imp
    (fun _ h => ⟨h.1, h.2.2.1⟩)

/-! ## RemoveConn -/

/-- Among nodes with distinct handles, the search by the handle of a node of
the list finds that node. -/
theorem find_of_mem (nodes : List Node) (e : Node) (hn : (nodes.map Node.id).Nodup)
    (he : e ∈ nodes) : nodes.find? (fun x => x.id = e.id) = some e := by
  induction nodes with
  | nil => simp at he
  | cons a rest ih =>
    simp only [List.map_cons, List.nodup_cons, List.mem_map, not_exists, not_and] at hn
    rcases List.mem_cons.1 he with h | h
    · subst h; simp
    · have hne : a.id ≠ e.id := fun heq => hn.1 e h heq.symm
      simp only [List.find?_cons, hne, decide_False]
      exact ih hn.2 h

/-- Among nodes with distinct handles, dropping the nodes with the handle of
a node of the list erases exactly that node. -/
theorem filter_eq_erase (nodes : List Node) (e : Node) (hn : (nodes.map Node.id).Nodup)
    (he : e ∈ nodes) : nodes.filter (fun x => x.id ≠ e.id) = nodes.erase e := by
  induction nodes with
  | nil => simp at he
  | cons a rest ih =>
    simp only [List.map_cons, List.nodup_cons, List.mem_map, not_exists, not_and] at hn
    by_cases hae : a = e
    · subst hae
      have hall : ∀ x ∈ rest, x.id ≠ a.id := fun x hx heq => hn.1 x hx heq
      simp only [List.filter_cons, ne_eq, not_true_eq_false, decide_False, Bool.false_eq_true,
        if_false, List.erase_cons_head]
      rw [List.filter_eq_self]
      intro x hx
      simpa using hall x hx
    · have h : e ∈ rest := by
        rcases List.mem_cons.1 he with h | h
        · exact absurd h.symm hae
        · exact h
      have hne : a.id ≠ e.id := fun heq => hn.1 e h heq.symm
      rw [List.erase_cons_tail (by simpa using hae), ← ih hn.2 h]
      simp [List.filter_cons, hne]

/-- The connection set after RemoveConn is what Remove leaves, whatever the
outcome, and no node is added. -/
theorem RemoveConn_connections (s : State) (key : String) (node : NodeId) :
    (RemoveConn s key node).st.c.connections = (s.c.connections.Remove node).1 ∧
    (RemoveConn s key node).st.c.connections.Len ≤ s.c.connections.Len := by
  have h1 : (RemoveConn s key node).st.c.connections = (s.c.connections.Remove node).1 := by
    unfold RemoveConn
    simp only
    split
    · rfl
    · split
      · rfl
      · split <;> rfl
  refine ⟨h1, ?_⟩
  rw [h1]
  unfold Hlist.Remove Hlist.Len
  split
  · exact List.length_filter_le _ _
  · exact le_refl _

/-- The four ways a RemoveConn call goes: the removed value is no
connection; or it is one and its queue is nil, closed already, or open. -/
theorem RemoveConn_cases (s : State) (key : String) (node : NodeId) :
    ((s.c.connections.Remove node).2 = none ∧
      RemoveConn s key node
        = ⟨.ret (some .ErrAssectionConn),
            { s with c := { s.c with mutex := false,
                                     connections := (s.c.connections.Remove node).1 } },
            [.Lock, .Remove node, .Unlock]⟩) ∨
    (∃ conn, (s.c.connections.Remove node).2 = some conn ∧ (s.conns conn).Msgs = none ∧
      RemoveConn s key node
        = ⟨.fault .closeNilChan,
            { s with c := { s.c with mutex := false,
                                     connections := (s.c.connections.Remove node).1 } },
            [.Lock, .Remove node, .Unlock, .CloseMsgs conn]⟩) ∨
    (∃ conn q, (s.c.connections.Remove node).2 = some conn ∧ (s.conns conn).Msgs = some q ∧
      q.closed = true ∧
      RemoveConn s key node
        = ⟨.fault .closeClosedChan,
            { s with c := { s.c with mutex := false,
                                     connections := (s.c.connections.Remove node).1 } },
            [.Lock, .Remove node, .Unlock, .CloseMsgs conn]⟩) ∨
    (∃ conn q, (s.c.connections.Remove node).2 = some conn ∧ (s.conns conn).Msgs = some q ∧
      q.closed = false ∧
      RemoveConn s key node
        = ⟨.ret none,
            { c := { s.c with mutex := false,
                              connections := (s.c.connections.Remove node).1 },
              conns := s.conns.set conn
                { s.conns conn with Msgs := some { q with closed := true } },
              ConnStat := s.ConnStat - 1 },
            [.Lock, .Remove node, .Unlock, .CloseMsgs conn, .IncrRemove,
              .Len (s.c.connections.Remove node).1.Len, .LogInfo]⟩) := by
  unfold RemoveConn
  rcases hr : (s.c.connections.Remove node).2 with _ | conn
  · left
    exact ⟨rfl, by simp only [hr]⟩
  · right
    rcases hq : (s.conns conn).Msgs with _ | q
    · left
      exact ⟨conn, rfl, hq, by simp only [hr, hq]⟩
    · right
      by_cases hc : q.closed = true
      · left
        exact ⟨conn, q, rfl, hq, hc, by simp only [hr, hq, hc, if_true]⟩
      · right
        have hc1 : q.closed = false := by simpa using hc
        exact ⟨conn, q, rfl, hq, hc1,
          by simp only [hr, hq, hc1, Bool.false_eq_true, if_false]⟩

/-- RemoveConn with the handle of an attached node whose connection has an
open queue, among nodes with distinct handles. -/
theorem RemoveConn_eq_ok (s : State) (key : String) (e : Node) (q : Chan)
    (hn : (s.c.connections.nodes.map Node.id).Nodup) (he : e ∈ s.c.connections.nodes)
    (hv : e.isConn = true)
    (hq : (s.conns e.Conn).Msgs = some q) (hc : q.closed = false) :
    RemoveConn s key e.id =
      ⟨.ret none,
        { c := { s.c with mutex := false,
                          connections := ⟨s.c.connections.nodes.erase e, s.c.connections.fresh⟩ },
          conns := s.conns.set e.Conn
            { s.conns e.Conn with Msgs := some { q with closed := true } },
          ConnStat := s.ConnStat - 1 },
        [.Lock, .Remove e.id, .Unlock, .CloseMsgs e.Conn, .IncrRemove,
          .Len (s.c.connections.nodes.erase e).length, .LogInfo]⟩ := by
  have hr : s.c.connections.Remove e.id
      = (⟨s.c.connections.nodes.erase e, s.c.connections.fresh⟩, some e.Conn) := by
    unfold Hlist.Remove
    rw [find_of_mem _ e hn he, filter_eq_erase _ e hn he]
    simp only [hv, if_true]
  unfold RemoveConn
  simp only [hr, hq, hc, Bool.false_eq_true, if_false, Hlist.Len]

/-! ## The shape of the reachable states -/

/-- A list with one more element at its end has no repetition exactly when
the element is new and the list has none. -/
theorem nodup_snoc {α : Type} (l : List α) (a : α) :
    (l ++ [a]).Nodup ↔ a ∉ l ∧ l.Nodup := by
  rw [List.nodup_append_comm]
  simp

/-- AddConn of a connection that is not attached keeps the shape. -/
theorem WF_AddConn (env : Env) (s : State) (key : String) (conn : ConnId) (h : WF s)
    (hf : ∀ e ∈ s.c.connections.nodes, e.Conn ≠ conn) : WF (AddConn env s key conn).st := by
  obtain ⟨h1, h2, h3, h4, h5⟩ := h
  by_cases hcap : (s.c.connections.Len : Int) + 1 > env.Conf.MaxSubscriberPerChannel
  · rw [AddConn_eq_full env s key conn hcap]
    exact ⟨h1, h2, h3, h4, h5⟩
  · rcases hw : env.connWrite conn env.HeartbeatReply with _ | err
    · rw [AddConn_eq_ok env s key conn hcap hw]
      unfold WF
      simp only [Hlist.PushFront, List.map_append, List.map_cons, List.map_nil, nodup_snoc,
        List.mem_map, not_exists, not_and, List.mem_append, List.mem_singleton]
      refine ⟨⟨?_, h1⟩, ⟨?_, h2⟩, ?_, ?_, ?_⟩
      · intro x hx heq
        exact absurd heq (Nat.ne_of_lt (h3 x hx))
      · intro x hx heq
        exact hf x hx heq
      · rintro x (hx | hx)
        · exact Nat.lt_succ_of_lt (h3 x hx)
        · rw [hx]; exact Nat.lt_succ_self _
      · rintro x (hx | hx)
        · simp only [Heap.set]
          rw [if_neg (hf x hx)]
          exact h4 x hx
        · rw [hx]
          simp [Heap.set, Connection.open]
      · rintro x (hx | hx)
        · exact h5 x hx
        · rw [hx]
    · rw [AddConn_eq_err env s key conn err hcap hw]
      exact ⟨h1, h2, h3, h4, h5⟩

/-- RemoveConn with the handle of an attached node keeps the shape. -/
theorem WF_RemoveConn (s : State) (key : String) (e : Node) (h : WF s)
    (he : e ∈ s.c.connections.nodes) : WF (RemoveConn s key e.id).st := by
  obtain ⟨h1, h2, h3, h4, h5⟩ := h
  have ho := h4 e he
  unfold Connection.open at ho
  rcases hq : (s.conns e.Conn).Msgs with _ | q
  · simp [hq] at ho
  · simp only [hq, Bool.not_eq_true'] at ho
    rw [RemoveConn_eq_ok s key e q h1 he (h5 e he) hq ho]
    have hsub : (s.c.connections.nodes.erase e).Sublist s.c.connections.nodes :=
      List.erase_sublist _ _
    have hmem : ∀ x ∈ s.c.connections.nodes.erase e, x ∈ s.c.connections.nodes :=
      fun x hx => hsub.subset hx
    have hnd : s.c.connections.nodes.Nodup := List.Nodup.of_map _ h1
    refine ⟨(hsub.map _).nodup h1, (hsub.map _).nodup h2, fun x hx => h3 x (hmem x hx), ?_,
      fun x hx => h5 x (hmem x hx)⟩
    intro x hx
    have hxe : x ≠ e := fun heq => by
      rw [heq] at hx
      exact (List.Nodup.mem_erase_iff hnd).1 hx |>.1 rfl
    have hconn : x.Conn ≠ e.Conn := fun heq =>
      hxe (List.inj_on_of_nodup_map h2 (hmem x hx) he heq)
    simp only [Heap.set]
    rw [if_neg hconn]
    exact h4 x (hmem x hx)

/-- PushMsg keeps the shape. -/
theorem WF_PushMsg (env : Env) (s : State) (key : String) (m : Message) (expire : Nat)
    (h : WF s) : WF (PushMsg env s key m expire).st := by
  obtain ⟨h1, h2, h3, h4, h5⟩ := h
  obtain ⟨f1, _, f3, _⟩ := PushMsg_frame env s key m expire
  unfold WF
  rw [f1]
  refine ⟨h1, h2, h3, ?_, h5⟩
  intro e he
  rw [f3]
  exact h4 e he

/-- Every state of a channel whose callers keep the precondition of AddConn
has the shape WF. -/
theorem ReachableFresh.wf (M : Int) (s : State) (h : ReachableFresh M s) : WF s := by
  induction h with
  | new h => exact ⟨by simp [NewChannel, Hlist.New], by simp [NewChannel, Hlist.New],
      by simp [NewChannel, Hlist.New], by simp [NewChannel, Hlist.New],
      by simp [NewChannel, Hlist.New]⟩
  | addConn env s key conn _ _ hf ih => exact WF_AddConn env s key conn ih hf
  | removeConn s key e _ he ih => exact WF_RemoveConn s key e ih he
  | pushMsg env s key m expire _ ih => exact WF_PushMsg env s key m expire ih
  | close env s _ ih => exact ih

/-! ## Detaching a connection, and the bound on the size -/

/-- C6: in a channel whose callers keep the precondition of AddConn, for
every attached node e (its handle was returned by AddConn for the connection
e.Conn), RemoveConn with that handle returns nil; it erases exactly e from
the connection set, so the size drops by one and every other node stays, in
the same order; it closes the queue of e.Conn, which was open, exactly once,
touches no other connection, and decrements the counter once; every later
PushMsg returns, enqueues nothing for e.Conn, leaves its queue as it is, and
when it returns nil it has enqueued for every remaining connection, in the
order of the list. -/
theorem RemoveConn_detaches (M : Int) (s : State) (key : String) (e : Node)
    (hr : ReachableFresh M s) (he : e ∈ s.c.connections.nodes) :
    (RemoveConn s key e.id).ret = .ret none ∧
    (RemoveConn s key e.id).st.c.connections.nodes = s.c.connections.nodes.erase e ∧
    e ∉ (RemoveConn s key e.id).st.c.connections.nodes ∧
    (∀ x ∈ (RemoveConn s key e.id).st.c.connections.nodes, x.Conn ≠ e.Conn) ∧
    (∀ x ∈ s.c.connections.nodes, x ≠ e →
      x ∈ (RemoveConn s key e.id).st.c.connections.nodes) ∧
    (RemoveConn s key e.id).st.c.connections.nodes.Sublist s.c.connections.nodes ∧
    (RemoveConn s key e.id).st.c.connections.Len + 1 = s.c.connections.Len ∧
    (∃ q, (s.conns e.Conn).Msgs = some q ∧ q.closed = false ∧
      ((RemoveConn s key e.id).st.conns e.Conn).Msgs = some { q with closed := true }) ∧
    (∀ x, x ≠ e.Conn → (RemoveConn s key e.id).st.conns x = s.conns x) ∧
    (RemoveConn s key e.id).tr.count (.CloseMsgs e.Conn) = 1 ∧
    (∀ x, Event.CloseMsgs x ∈ (RemoveConn s key e.id).tr → x = e.Conn) ∧
    (RemoveConn s key e.id).st.ConnStat = s.ConnStat - 1 ∧
    (RemoveConn s key e.id).tr.count .IncrRemove = 1 ∧
    (∀ (env1 : Env) (key1 : String) (m : Message) (expire : Nat),
      (∀ f, (PushMsg env1 (RemoveConn s key e.id).st key1 m expire).ret.1 ≠ .fault f) ∧
      (∀ k b, Event.Write e.Conn k b
        ∉ (PushMsg env1 (RemoveConn s key e.id).st key1 m expire).tr) ∧
      (PushMsg env1 (RemoveConn s key e.id).st key1 m expire).st.conns e.Conn
        = (RemoveConn s key e.id).st.conns e.Conn ∧
      ((PushMsg env1 (RemoveConn s key e.id).st key1 m expire).ret.1 = .ret none →
        written (PushMsg env1 (RemoveConn s key e.id).st key1 m expire).tr
          = (s.c.connections.nodes.erase e).map Node.Conn)) := by
  have hwf := ReachableFresh.wf M s hr
  have hwf1 := WF_RemoveConn s key e hwf he
  obtain ⟨h1, h2, h3, h4, h5⟩ := hwf
  have ho := h4 e he
  unfold Connection.open at ho
  rcases hq : (s.conns e.Conn).Msgs with _ | q
  · simp [hq] at ho
  simp only [hq, Bool.not_eq_true'] at ho
  have heq := RemoveConn_eq_ok s key e q h1 he (h5 e he) hq ho
  have hnd : s.c.connections.nodes.Nodup := List.Nodup.of_map _ h1
  have hnodes : (RemoveConn s key e.id).st.c.connections.nodes
      = s.c.connections.nodes.erase e := by rw [heq]
  have hnot : ∀ x ∈ s.c.connections.nodes.erase e, x.Conn ≠ e.Conn := by
    intro x hx hc
    have hx1 := (List.Nodup.mem_erase_iff hnd).1 hx
    exact hx1.1 (List.inj_on_of_nodup_map h2 hx1.2 he hc)
  refine ⟨by rw [heq], hnodes, ?_, ?_, ?_, ?_, ?_, ⟨q, rfl, ho, ?_⟩, ?_, ?_, ?_, by rw [heq],
    ?_, ?_⟩
  · rw [hnodes]
    exact fun h => ((List.Nodup.mem_erase_iff hnd).1 h).1 rfl
  · rw [hnodes]; exact hnot
  · intro x hx hxe
    rw [hnodes]
    exact (List.Nodup.mem_erase_iff hnd).2 ⟨hxe, hx⟩
  · rw [hnodes]; exact List.erase_sublist _ _
  · rw [heq]
    simp only [Hlist.Len]
    rw [List.length_erase_of_mem he]
    have : 0 < s.c.connections.nodes.length := List.length_pos_of_mem he
    omega
  · rw [heq]; simp [Heap.set]
  · intro x hx
    rw [heq]
    simp only [Heap.set]
    rw [if_neg hx]
  · rw [heq]; simp [List.count_cons]
  · intro x hx
    rw [heq] at hx
    simpa using hx
  · rw [heq]; simp [List.count_cons]
  · intro env1 key1 m expire
    have hfresh : ∀ x ∈ (RemoveConn s key e.id).st.c.connections.nodes, x.Conn ≠ e.Conn := by
      rw [hnodes]; exact hnot
    refine ⟨PushMsg_no_fault env1 _ key1 m expire hwf1.2.2.2.1, ?_, ?_, ?_⟩
    · intro k b hmem
      obtain ⟨⟨x, hx, hxc⟩, _⟩ := PushMsg_write_mem env1 _ key1 m expire e.Conn k b hmem
      exact hfresh x hx hxc
    · exact PushMsg_frame_conn env1 _ key1 m expire e.Conn hfresh
    · intro hnil
      rw [written_of_filter _ _ key1 _ (PushMsg_nil_writes env1 _ key1 m expire hnil), hnodes]

/-- C6 at the channel with connections 1 and 2: the handle 0 of connection 1
is removed, and a later push enqueues for connection 2 only. -/
theorem RemoveConn_detaches_witness :
    (RemoveConn st2 "k" 0).ret = .ret none ∧
    (RemoveConn st2 "k" 0).st.c.connections.nodes = [⟨1, 2, true⟩] ∧
    written (PushMsg envOK (RemoveConn st2 "k" 0).st "k" ⟨[7], 0⟩ 0).tr = [2] :=
  have hr : ReachableFresh 2 st2 :=
    ReachableFresh.addConn envOK st1 "k" 2
      (ReachableFresh.addConn envOK st0 "k" 1 (ReachableFresh.new heap0) rfl (by decide))
      rfl (by decide)
  have he : (⟨0, 1, true⟩ : Node) ∈ st2.c.connections.nodes := by decide
  ⟨(RemoveConn_detaches 2 st2 "k" ⟨0, 1, true⟩ hr he).1,
   (RemoveConn_detaches 2 st2 "k" ⟨0, 1, true⟩ hr he).2.1.trans (by decide),
   by decide⟩

/-- The size of the connection set never exceeds a non-negative maximum. -/
theorem Reachable.len_le (M : Int) (s : State) (hM : 0 ≤ M) (hr : Reachable M s) :
    (s.c.connections.Len : Int) ≤ M := by
  induction hr with
  | new h => simpa [NewChannel, Hlist.New, Hlist.Len] using hM
  | addConn env s key conn _ hmax ih =>
    by_cases hcap : (s.c.connections.Len : Int) + 1 > env.Conf.MaxSubscriberPerChannel
    · rw [AddConn_eq_full env s key conn hcap]
      exact ih
    · rcases hw : env.connWrite conn env.HeartbeatReply with _ | err
      · rw [AddConn_eq_ok env s key conn hcap hw]
        simp only [Hlist.PushFront, Hlist.Len, List.length_append, List.length_cons,
          List.length_nil] at hcap ⊢
        rw [hmax] at hcap
        push_cast
        omega
      · rw [AddConn_eq_err env s key conn err hcap hw]
        exact ih
  | removeConn s key e _ _ ih =>
    have := (RemoveConn_connections s key e.id).2
    omega
  | pushMsg env s key m expire _ ih =>
    rw [(PushMsg_frame env s key m expire).1]
    exact ih
  | close env s _ ih => exact ih

/-- C8: from a new channel, under a maximum M of subscribers that is not
negative, after every sequence of AddConn, RemoveConn with handles of
attached nodes, PushMsg and Close calls the size of the connection set is at
most M; and an AddConn issued while the size equals M returns ErrMaxConn and
leaves the size equal to M. -/
theorem size_le_max (M : Int) (s : State) (hM : 0 ≤ M) (hr : Reachable M s) :
    (s.c.connections.Len : Int) ≤ M ∧
    ∀ (env : Env) (key : String) (conn : ConnId),
      env.Conf.MaxSubscriberPerChannel = M → (s.c.connections.Len : Int) = M →
      (AddConn env s key conn).ret = (none, some .ErrMaxConn) ∧
      ((AddConn env s key conn).st.c.connections.Len : Int) = M := by
  refine ⟨Reachable.len_le M s hM hr, ?_⟩
  intro env key conn hmax hlen
  have hcap : (s.c.connections.Len : Int) + 1 > env.Conf.MaxSubscriberPerChannel := by
    rw [hmax]; omega
  rw [AddConn_eq_full env s key conn hcap]
  exact ⟨rfl, hlen⟩

/-- C8 at the channel with two connections under a maximum of two: the size
is within the maximum and a third AddConn is rejected. -/
theorem size_le_max_witness :
    (st2.c.connections.Len : Int) ≤ 2 ∧
    (AddConn envOK st2 "k" 3).ret = (none, some .ErrMaxConn) :=
  have hr : Reachable 2 st2 :=
    Reachable.addConn envOK st1 "k" 2
      (Reachable.addConn envOK st0 "k" 1 (Reachable.new heap0) rfl) rfl
  ⟨(size_le_max 2 st2 (by decide) hr).1,
   ((size_le_max 2 st2 (by decide) hr).2 envOK "k" 3 rfl (by decide)).1⟩

/-! ## The order of the enqueues -/

/-- What Remove leaves is a part of the list, in the same order, and the
next handle is as it was. -/
theorem Remove_sublist (l : Hlist) (node : NodeId) :
    (l.Remove node).1.nodes.Sublist l.nodes ∧ (l.Remove node).1.fresh = l.fresh := by
  unfold Hlist.Remove
  split
  · exact ⟨List.filter_sublist _, rfl⟩
  · exact ⟨List.Sublist.refl _, rfl⟩

/-- Along every attach log the handles of the nodes of the list are, in the
order of the list, a part of the log; the log is strictly increasing, and
every handle in it is older than the next handle. -/
theorem Attached.sorted_log (M : Int) (log : List NodeId) (s : State) (h : Attached M log s) :
    (s.c.connections.nodes.map Node.id).Sublist log ∧
    log.Pairwise (fun x y => x < y) ∧
    (∀ x ∈ log, x < s.c.connections.fresh) := by
  induction h with
  | new h => simp [NewChannel, Hlist.New]
  | addConn env log s key conn _ _ ih =>
    obtain ⟨h1, h2, h3⟩ := ih
    by_cases hcap : (s.c.connections.Len : Int) + 1 > env.Conf.MaxSubscriberPerChannel
    · rw [AddConn_eq_full env s key conn hcap]
      simpa using ⟨h1, h2, h3⟩
    · rcases hw : env.connWrite conn env.HeartbeatReply with _ | err
      · rw [AddConn_eq_ok env s key conn hcap hw]
        simp only [Hlist.PushFront, Option.toList, List.map_append, List.map_cons,
          List.map_nil]
        refine ⟨List.Sublist.append h1 (List.Sublist.refl _), ?_, ?_⟩
        · rw [List.pairwise_append]
          refine ⟨h2, by simp, ?_⟩
          intro x hx y hy
          simp only [List.mem_singleton] at hy
          rw [hy]
          exact h3 x hx
        · intro x hx
          simp only [List.mem_append, List.mem_singleton] at hx
          rcases hx with hx | hx
          · exact Nat.lt_succ_of_lt (h3 x hx)
          · rw [hx]; exact Nat.lt_succ_self _
      · rw [AddConn_eq_err env s key conn err hcap hw]
        simpa using ⟨h1, h2, h3⟩
  | removeConn log s key e _ _ ih =>
    obtain ⟨h1, h2, h3⟩ := ih
    obtain ⟨r1, r2⟩ := Remove_sublist s.c.connections e.id
    rw [(RemoveConn_connections s key e.id).1, r2]
    exact ⟨(r1.map _).trans h1, h2, h3⟩
  | pushMsg env log s key m expire _ ih =>
    rw [(PushMsg_frame env s key m expire).1]
    exact ih
  | close env log s _ ih => exact ih

/-- In a list whose handles are strictly increasing, a node with the smaller
handle comes before a node with the larger one. -/
theorem split_of_lt (l : List Node) (a b : Node)
    (hp : (l.map Node.id).Pairwise (fun x y => x < y)) (ha : a ∈ l) (hb : b ∈ l)
    (hlt : a.id < b.id) : ∃ p1 p2 p3, l = p1 ++ a :: (p2 ++ b :: p3) := by
  induction l with
  | nil => simp at ha
  | cons x t ih =>
    simp only [List.map_cons, List.pairwise_cons, List.mem_map, forall_exists_index, and_imp,
      forall_apply_eq_imp_iff₂] at hp
    rcases List.mem_cons.1 ha with hax | hat
    · rcases List.mem_cons.1 hb with hbx | hbt
      · rw [hax, hbx] at hlt
        exact absurd hlt (Nat.lt_irrefl _)
      · obtain ⟨p2, p3, ht⟩ := List.append_of_mem hbt
        exact ⟨[], p2, p3, by rw [hax, ht]; rfl⟩
    · rcases List.mem_cons.1 hb with hbx | hbt
      · have := hp.1 a hat
        rw [hbx] at hlt
        exact absurd hlt (Nat.lt_asymm this)
      · obtain ⟨p1, p2, p3, ht⟩ := ih hp.2 hat hbt
        exact ⟨x :: p1, p2, p3, by rw [ht]; rfl⟩

/-- C10: PushMsg iterates the connection set in insertion order. Along every
attach log, the handles of the list are in the order in which AddConn
returned them; a push that returns nil enqueues in the order of the list;
and for any two nodes a and b both attached at the time of the push, if the
handle of a was returned by an earlier AddConn than the handle of b, then the
push enqueues the message for the connection of a before it enqueues it for
the connection of b. -/
theorem PushMsg_insertion_order (M : Int) (log : List NodeId) (s : State)
    (h : Attached M log s) (a b : Node) (l1 l2 l3 : List NodeId)
    (hlog : log = l1 ++ a.id :: (l2 ++ b.id :: l3))
    (ha : a ∈ s.c.connections.nodes) (hb : b ∈ s.c.connections.nodes)
    (env : Env) (key : String) (m : Message) (expire : Nat)
    (hp : (PushMsg env s key m expire).ret.1 = .ret none) :
    (s.c.connections.nodes.map Node.id).Sublist log ∧
    written (PushMsg env s key m expire).tr = s.c.connections.nodes.map Node.Conn ∧
    ∃ w1 w2 w3, (PushMsg env s key m expire).tr.filter Event.isWrite
      = w1 ++ Event.Write a.Conn key (encoding env (stamped s m) (s.conns a.Conn).Version)
          :: (w2 ++ Event.Write b.Conn key
              (encoding env (stamped s m) (s.conns b.Conn).Version) :: w3) := by
  obtain ⟨h1, h2, _⟩ := Attached.sorted_log M log s h
  have hw := PushMsg_nil_writes env s key m expire hp
  refine ⟨h1, written_of_filter _ _ key _ hw, ?_⟩
  have hlt : a.id < b.id := by
    rw [hlog, List.pairwise_append] at h2
    have h3 := (List.pairwise_cons.1 h2.2.1).1
    exact h3 b.id (by simp)
  obtain ⟨p1, p2, p3, hsplit⟩ :=
    split_of_lt s.c.connections.nodes a b (List.Pairwise.sublist h1 h2) ha hb hlt
  rw [hw, hsplit]
  exact ⟨p1.map (fun e => Event.Write e.Conn key
      (encoding env (stamped s m) (s.conns e.Conn).Version)),
    p2.map (fun e => Event.Write e.Conn key
      (encoding env (stamped s m) (s.conns e.Conn).Version)),
    p3.map (fun e => Event.Write e.Conn key
      (encoding env (stamped s m) (s.conns e.Conn).Version)),
    by rw [List.map_append, List.map_cons, List.map_append, List.map_cons]⟩

/-- C10 at the channel where connections 1 and 2 were attached, connection 1
was detached and connection 3 was attached: connection 2, attached before
connection 3, is enqueued for before it. -/
theorem PushMsg_insertion_order_witness :
    written (PushMsg envOK st3 "k" ⟨[7], 0⟩ 0).tr = [2, 3] ∧
    ∃ w1 w2 w3, (PushMsg envOK st3 "k" ⟨[7], 0⟩ 0).tr.filter Event.isWrite
      = w1 ++ Event.Write 2 "k" (some [1, 7]) :: (w2 ++ Event.Write 3 "k" (some [1, 7]) :: w3) :=
  have hh : Attached 2 [0, 1, 2] st3 :=
    Attached.addConn envOK _ (RemoveConn st2 "k" 0).st "k" 3
      (Attached.removeConn _ st2 "k" ⟨0, 1, true⟩
        (Attached.addConn envOK _ st1 "k" 2
          (Attached.addConn envOK _ st0 "k" 1 (Attached.new heap0) rfl) rfl)
        (by decide)) rfl
  ⟨(PushMsg_insertion_order 2 [0, 1, 2] st3 hh ⟨1, 2, true⟩ ⟨2, 3, true⟩ [0] [] []
      (by decide) (by decide) (by decide) envOK "k" ⟨[7], 0⟩ 0 (by decide)).2.1.trans
      (by decide),
   (PushMsg_insertion_order 2 [0, 1, 2] st3 hh ⟨1, 2, true⟩ ⟨2, 3, true⟩ [0] [] []
      (by decide) (by decide) (by decide) envOK "k" ⟨[7], 0⟩ 0 (by decide)).2.2⟩

/-! ## The tokens -/

/-- C14: for every state and all strings key and token, AddToken returns nil
and leaves the whole state, so the token and the connection set, as it was,
performing nothing; and AuthToken returns true, whatever was added before,
and leaves the state as it was. -/
theorem tokens_permissive (s : State) (key token : String) :
    (AddToken s key token).ret = none ∧
    (AddToken s key token).st = s ∧
    (AddToken s key token).st.c.token = s.c.token ∧
    (AddToken s key token).st.c.connections = s.c.connections ∧
    (AddToken s key token).tr = [] ∧
    (AuthToken s key token).ret = true ∧
    (AuthToken s key token).st = s ∧
    (∀ key1 token1, (AuthToken (AddToken s key1 token1).st key token).ret = true) :=
  ⟨rfl, rfl, rfl, rfl, rfl, rfl, rfl, fun _ _ => rfl⟩

/-! ## Close -/

/-- The transport closes of the loop of Close are one per node, in the order
of the list, and the loop closes no queue, locks nothing and reads no length. -/
theorem closeLoop_spec (env : Env) (nodes : List Node) :
    closedConns (closeLoop env nodes) = nodes.map Node.Conn ∧
    (∀ ev ∈ closeLoop env nodes,
      (∃ c, ev = .ConnClose c ∧ ∃ e ∈ nodes, e.Conn = c) ∨ ev = .LogWarn ∨ ev = .Next) := by
  induction nodes with
  | nil => simp [closeLoop, closedConns]
  | cons e rest ih =>
    obtain ⟨ih1, ih2⟩ := ih
    unfold closedConns at ih1 ⊢
    constructor
    · unfold closeLoop
      rcases env.connClose e.Conn with _ | err
      · simp only [List.filterMap_append, List.filterMap_cons, List.filterMap_nil, ih1,
          List.map_cons]
        rfl
      · simp only [List.filterMap_append, List.filterMap_cons, List.filterMap_nil, ih1,
          List.map_cons]
        rfl
    · intro ev hev
      unfold closeLoop at hev
      have hrest : ev ∈ closeLoop env rest →
          (∃ c, ev = .ConnClose c ∧ ∃ x ∈ e :: rest, x.Conn = c) ∨ ev = .LogWarn
            ∨ ev = .Next := by
        intro h
        rcases ih2 ev h with ⟨c, hc, x, hx, hxc⟩ | h1 | h1
        · exact Or.inl ⟨c, hc, x, List.mem_cons_of_mem _ hx, hxc⟩
        · exact Or.inr (Or.inl h1)
        · exact Or.inr (Or.inr h1)
      rcases hcl : env.connClose e.Conn with _ | err
      · simp only [hcl, List.mem_append, List.mem_cons, List.mem_singleton,
          List.mem_nil_iff, or_false] at hev
        rcases hev with (h | h) | h
        · exact Or.inl ⟨e.Conn, h, e, List.mem_cons_self _ _, rfl⟩
        · exact Or.inr (Or.inr h)
        · exact hrest h
      · simp only [hcl, List.mem_append, List.mem_cons, List.mem_singleton,
          List.mem_nil_iff, or_false] at hev
        rcases hev with (h | h | h) | h
        · exact Or.inl ⟨e.Conn, h, e, List.mem_cons_self _ _, rfl⟩
        · exact Or.inr (Or.inl h)
        · exact Or.inr (Or.inr h)
        · exact hrest h

/-- The transport closes of a Close call are those of its loop. -/
theorem Close_closedConns (env : Env) (s : State) :
    closedConns (Close env s).tr = s.c.connections.nodes.map Node.Conn := by
  have h := (closeLoop_spec env s.c.connections.nodes).1
  unfold closedConns at h ⊢
  unfold Close
  simp only [List.filterMap_append, List.filterMap_cons, List.filterMap_nil, h,
    List.nil_append, List.append_nil]

/-- Every event of a Close call is the lock, the start of the iteration, a
transport close of an attached connection, a warning, a step to the next
node, or the unlock. -/
theorem Close_events (env : Env) (s : State) (ev : Event) (h : ev ∈ (Close env s).tr) :
    ev = .Lock ∨ ev = .Front ∨ ev = .Unlock ∨ ev = .LogWarn ∨ ev = .Next ∨
    (∃ c, ev = .ConnClose c ∧ ∃ e ∈ s.c.connections.nodes, e.Conn = c) := by
  unfold Close at h
  simp only [List.mem_append, List.mem_cons, List.mem_singleton, List.mem_nil_iff,
    or_false] at h
  rcases h with ((h | h) | h) | h
  · exact Or.inl h
  · exact Or.inr (Or.inl h)
  · rcases (closeLoop_spec env s.c.connections.nodes).2 ev h with h1 | h1 | h1
    · exact Or.inr (Or.inr (Or.inr (Or.inr (Or.inr h1))))
    · exact Or.inr (Or.inr (Or.inr (Or.inl h1)))
    · exact Or.inr (Or.inr (Or.inr (Or.inr (Or.inl h1))))
  · exact Or.inr (Or.inr (Or.inl h))

/-- C12: for every state and whatever the transport close of each connection
returns, Close returns nil; its transport closes are exactly one per attached
node, in the order of the list, so a failing close stops nothing; the
connection set, every connection record (so every outbound queue) and the
counter are as they were, and no event of the call closes a queue. -/
theorem Close_closes_all (env : Env) (s : State) :
    (Close env s).ret = none ∧
    closedConns (Close env s).tr = s.c.connections.nodes.map Node.Conn ∧
    (∀ c, (closedConns (Close env s).tr).count c
      = (s.c.connections.nodes.map Node.Conn).count c) ∧
    (Close env s).st.c.connections = s.c.connections ∧
    (Close env s).st.c.connections.Len = s.c.connections.Len ∧
    (Close env s).st.conns = s.conns ∧
    (Close env s).st.ConnStat = s.ConnStat ∧
    (∀ c, Event.CloseMsgs c ∉ (Close env s).tr) := by
  refine ⟨rfl, Close_closedConns env s, ?_, rfl, rfl, rfl, rfl, ?_⟩
  · intro c
    rw [Close_closedConns env s]
  · intro c hc
    rcases Close_events env s _ hc with h | h | h | h | h | ⟨x, h, _⟩ <;> simp at h

/-- C12 at the channel with connections 1 and 2 whose transports fail to
close: both are closed, front to back. -/
theorem Close_closes_all_witness :
    (Close envCloseFails st2).ret = none ∧
    closedConns (Close envCloseFails st2).tr = [1, 2] :=
  ⟨(Close_closes_all envCloseFails st2).1,
   (Close_closes_all envCloseFails st2).2.1.trans (by decide)⟩

/-! ## RemoveConn followed by Close -/

/-- C13: in a channel whose callers keep the precondition of AddConn, after
RemoveConn has detached the attached node e, a following Close performs no
transport close of e.Conn and no queue close at all; over the two calls the
queue of e.Conn is closed exactly once and the transport of e.Conn is closed
at most once (not at all). -/
theorem RemoveConn_then_Close (M : Int) (s : State) (key : String) (e : Node) (env : Env)
    (hr : ReachableFresh M s) (he : e ∈ s.c.connections.nodes) :
    (RemoveConn s key e.id).ret = .ret none ∧
    Event.ConnClose e.Conn ∉ (Close env (RemoveConn s key e.id).st).tr ∧
    (∀ c, Event.CloseMsgs c ∉ (Close env (RemoveConn s key e.id).st).tr) ∧
    ((RemoveConn s key e.id).tr ++ (Close env (RemoveConn s key e.id).st).tr).count
      (.CloseMsgs e.Conn) = 1 ∧
    ((RemoveConn s key e.id).tr ++ (Close env (RemoveConn s key e.id).st).tr).count
      (.ConnClose e.Conn) ≤ 1 := by
  obtain ⟨h1, h2, _, h4, h5⟩ := ReachableFresh.wf M s hr
  have ho := h4 e he
  unfold Connection.open at ho
  rcases hq : (s.conns e.Conn).Msgs with _ | q
  · simp [hq] at ho
  simp only [hq, Bool.not_eq_true'] at ho
  have heq := RemoveConn_eq_ok s key e q h1 he (h5 e he) hq ho
  have hnd : s.c.connections.nodes.Nodup := List.Nodup.of_map _ h1
  have hnot : ∀ x ∈ (RemoveConn s key e.id).st.c.connections.nodes, x.Conn ≠ e.Conn := by
    rw [heq]
    intro x hx hc
    have hx1 := (List.Nodup.mem_erase_iff hnd).1 hx
    exact hx1.1 (List.inj_on_of_nodup_map h2 hx1.2 he hc)
  have hcc : Event.ConnClose e.Conn ∉ (Close env (RemoveConn s key e.id).st).tr := by
    intro hc
    rcases Close_events env _ _ hc with h | h | h | h | h | ⟨c, h, x, hx, hxc⟩
    · simp at h
    · simp at h
    · simp at h
    · simp at h
    · simp at h
    · simp only [Event.ConnClose.injEq] at h
      exact hnot x hx (hxc.trans h.symm)
  have hcm : ∀ c, Event.CloseMsgs c ∉ (Close env (RemoveConn s key e.id).st).tr := by
    intro c hc
    rcases Close_events env _ _ hc with h | h | h | h | h | ⟨x, h, _⟩ <;> simp at h
  refine ⟨by rw [heq], hcc, hcm, ?_, ?_⟩
  · rw [List.count_append, List.count_eq_zero_of_not_mem (hcm e.Conn)]
    rw [heq]
    simp [List.count_cons]
  · rw [List.count_append, List.count_eq_zero_of_not_mem hcc]
    rw [heq]
    simp [List.count_cons]

/-- C13 at the channel with connections 1 and 2: after the handle 0 of
connection 1 is removed, Close closes the transport of connection 2 only. -/
theorem RemoveConn_then_Close_witness :
    (RemoveConn st2 "k" 0).ret = .ret none ∧
    closedConns (Close envOK (RemoveConn st2 "k" 0).st).tr = [2] :=
  have hr : ReachableFresh 2 st2 :=
    ReachableFresh.addConn envOK st1 "k" 2
      (ReachableFresh.addConn envOK st0 "k" 1 (ReachableFresh.new heap0) rfl (by decide))
      rfl (by decide)
  ⟨(RemoveConn_then_Close 2 st2 "k" ⟨0, 1, true⟩ envOK hr (by decide)).1, by decide⟩

/-! ## The message ids -/

/-- Whatever its outcome, a PushMsg call leaves the message with the id the
generator gave, and the generator one id further. -/
theorem PushMsg_id (env : Env) (s : State) (key : String) (m : Message) (expire : Nat) :
    (PushMsg env s key m expire).ret.2 = { m with MsgId := s.c.timeID.lastID + 1 } ∧
    (PushMsg env s key m expire).st.c.timeID.lastID = s.c.timeID.lastID + 1 := by
  rcases PushMsg_cases env s key m expire with ⟨err, _, _, heq⟩ | ⟨_, h | h | h⟩
  · rw [heq]; exact ⟨rfl, rfl⟩
  · rw [h.2]; exact ⟨rfl, rfl⟩
  · obtain ⟨err, _, heq⟩ := h
    rw [heq]; exact ⟨rfl, rfl⟩
  · obtain ⟨f, _, heq⟩ := h
    rw [heq]; exact ⟨rfl, rfl⟩

/-- The ids of consecutive PushMsg calls are above the last id given before
them, and strictly increasing. -/
theorem pushSeq_ids (calls : List PushCall) :
    ∀ s : State,
      (∀ id ∈ (pushSeq s calls).1.map Message.MsgId, s.c.timeID.lastID < id) ∧
      ((pushSeq s calls).1.map Message.MsgId).Pairwise (fun a b => a < b) := by
  induction calls with
  | nil => intro s; simp [pushSeq]
  | cons c rest ih =>
    intro s
    obtain ⟨h1, h2⟩ := PushMsg_id c.env s c.key c.m c.expire
    obtain ⟨ih1, ih2⟩ := ih (PushMsg c.env s c.key c.m c.expire).st
    rw [h2] at ih1
    simp only [pushSeq, List.map_cons, List.mem_cons, forall_eq_or_imp, List.pairwise_cons, h1]
    refine ⟨⟨by omega, ?_⟩, ?_, ih2⟩
    · intro id hid
      have := ih1 id hid
      omega
    · intro id hid
      have := ih1 id hid
      omega

/-- C11: for every sequence of consecutive PushMsg calls on one channel,
whatever the outcome of each call, the ids of the messages the calls leave
are strictly increasing in the order of the calls, so no id comes twice, and
all are above the last id given before; the id of a call is the one the
generator gives, whatever MsgId the caller put in the message. -/
theorem PushMsg_ids_increase (s : State) (calls : List PushCall) :
    ((pushSeq s calls).1.map Message.MsgId).Pairwise (fun a b => a < b) ∧
    ((pushSeq s calls).1.map Message.MsgId).Nodup ∧
    (∀ id ∈ (pushSeq s calls).1.map Message.MsgId, s.c.timeID.lastID < id) ∧
    (∀ (env : Env) (key : String) (m : Message) (expire : Nat),
      (PushMsg env s key m expire).ret.2.MsgId = s.c.timeID.ID.1 ∧
      (PushMsg env s key m expire).ret.2.Msg = m.Msg) := by
  obtain ⟨h1, h2⟩ := pushSeq_ids calls s
  refine ⟨h2, ?_, h1, ?_⟩
  · exact h2.imp (fun h => ne_of_lt h)
  · intro env key m expire
    rw [(PushMsg_id env s key m expire).1]
    exact ⟨rfl, rfl⟩

/-- C11 at the channel with two connections: a push that succeeds, a push
whose save fails and a push whose legacy encoder fails get the ids 1, 2, 3,
whatever ids the caller put. -/
theorem PushMsg_ids_increase_witness :
    (pushSeq st2 [⟨envOK, "k", ⟨[7], 50⟩, 0⟩, ⟨envSaveFails, "k", ⟨[8], 50⟩, 60⟩,
        ⟨envOldFails, "k", ⟨[9], 0⟩, 0⟩]).1.map Message.MsgId = [1, 2, 3] ∧
    ((pushSeq st2 [⟨envOK, "k", ⟨[7], 50⟩, 0⟩, ⟨envSaveFails, "k", ⟨[8], 50⟩, 60⟩,
        ⟨envOldFails, "k", ⟨[9], 0⟩, 0⟩]).1.map Message.MsgId).Nodup :=
  ⟨by decide,
   (PushMsg_ids_increase st2 [⟨envOK, "k", ⟨[7], 50⟩, 0⟩, ⟨envSaveFails, "k", ⟨[8], 50⟩, 60⟩,
        ⟨envOldFails, "k", ⟨[9], 0⟩, 0⟩]).2.1⟩

/-! ## The mutex -/

/-- The encoder calls of one choice: none, one of the legacy encoder, or one
of the current encoder. -/
theorem selectMsg_evs_cases (env : Env) (m : Message) (v : String) (o g : ByteSlice) :
    (selectMsg env m v o g).1 = [] ∨ (selectMsg env m v o g).1 = [.OldBytes m] ∨
    (selectMsg env m v o g).1 = [.Bytes m] := by
  unfold selectMsg
  split_ifs
  · rcases env.OldBytes m with ⟨b0, _ | err⟩ <;> simp
  · simp
  · rcases env.Bytes m with ⟨b0, _ | err⟩ <;> simp
  · simp

/-- The loop never locks, and unlocks exactly when it returns an error. -/
theorem pushLoop_lock_count (env : Env) (key : String) (m : Message) :
    ∀ (nodes : List Node) (ls : LoopSt),
      (pushLoop env key m nodes ls).2.2.count .Lock = 0 ∧
      (pushLoop env key m nodes ls).2.2.count .Unlock
        = if returnsError (pushLoop env key m nodes ls).1 then 1 else 0 := by
  intro nodes
  induction nodes with
  | nil => intro ls; simp [pushLoop, returnsError]
  | cons e rest ih =>
    intro ls
    have hc := selectMsg_evs_cases env m (ls.conns e.Conn).Version ls.oldMsg ls.msg
    rcases hsel : selectMsg env m (ls.conns e.Conn).Version ls.oldMsg ls.msg with
      ⟨evs, (err | ⟨b, o, g⟩)⟩
    · rw [pushLoop_cons_err env key m e rest ls evs err hsel]
      rw [hsel] at hc
      rcases hc with h | h | h <;> simp at h <;> subst h <;>
        simp [List.count_cons, returnsError]
    · rw [hsel] at hc
      rcases hw : (ls.conns e.Conn).Write key b with c1 | f
      · rw [pushLoop_cons_ret env key m e rest ls evs _ _ _ c1 hsel hw]
        obtain ⟨ih1, ih2⟩ := ih ⟨o, g, ls.conns.set e.Conn c1⟩
        simp only [List.count_append, ih1, ih2]
        rcases hc with h | h | h <;> simp at h <;> subst h <;> simp [List.count_cons]
      · rw [pushLoop_cons_fault env key m e rest ls evs _ _ _ f hsel hw]
        rcases hc with h | h | h <;> simp at h <;> subst h <;>
          simp [List.count_cons, returnsError]

/-- C19: every operation that takes the mutex releases it on every return
path. AddConn (success, capacity rejection, heartbeat write error),
RemoveConn (success, assertion failure) and Close, and every PushMsg call
that returns (success, persistence error, encoder error), start with the
lock, lock exactly once, unlock exactly once, and leave the mutex unlocked,
whatever the inputs; in particular the mutex is unlocked after a call that
started with it unlocked. -/
theorem mutex_released (env : Env) (s : State) (key : String) :
    (∀ conn, (AddConn env s key conn).st.c.mutex = false ∧
      (AddConn env s key conn).tr.head? = some .Lock ∧
      (AddConn env s key conn).tr.count .Lock = 1 ∧
      (AddConn env s key conn).tr.count .Unlock = 1) ∧
    (∀ node, (RemoveConn s key node).st.c.mutex = false ∧
      (RemoveConn s key node).tr.head? = some .Lock ∧
      (RemoveConn s key node).tr.count .Lock = 1 ∧
      (RemoveConn s key node).tr.count .Unlock = 1) ∧
    ((Close env s).st.c.mutex = false ∧
      (Close env s).tr.head? = some .Lock ∧
      (Close env s).tr.count .Lock = 1 ∧
      (Close env s).tr.count .Unlock = 1) ∧
    (∀ m expire r, (PushMsg env s key m expire).ret.1 = .ret r →
      (PushMsg env s key m expire).st.c.mutex = false ∧
      (PushMsg env s key m expire).tr.head? = some .Lock ∧
      (PushMsg env s key m expire).tr.count .Lock = 1 ∧
      (PushMsg env s key m expire).tr.count .Unlock = 1) := by
  refine ⟨?_, ?_, ?_, ?_⟩
  · intro conn
    by_cases hcap : (s.c.connections.Len : Int) + 1 > env.Conf.MaxSubscriberPerChannel
    · rw [AddConn_eq_full env s key conn hcap]
      simp [List.count_cons]
    · rcases hw : env.connWrite conn env.HeartbeatReply with _ | err
      · rw [AddConn_eq_ok env s key conn hcap hw]
        simp [List.count_cons]
      · rw [AddConn_eq_err env s key conn err hcap hw]
        simp [List.count_cons]
  · intro node
    unfold RemoveConn
    simp only
    split
    · simp [List.count_cons]
    · split
      · simp [List.count_cons]
      · split <;> simp [List.count_cons]
  · have hev : ∀ ev ∈ closeLoop env s.c.connections.nodes, ev ≠ .Lock ∧ ev ≠ .Unlock := by
      intro ev hev
      rcases (closeLoop_spec env s.c.connections.nodes).2 ev hev with ⟨c, h, _⟩ | h | h <;>
        simp [h]
    have h1 : (closeLoop env s.c.connections.nodes).count .Lock = 0 :=
      List.count_eq_zero_of_not_mem (fun h => (hev _ h).1 rfl)
    have h2 : (closeLoop env s.c.connections.nodes).count .Unlock = 0 :=
      List.count_eq_zero_of_not_mem (fun h => (hev _ h).2 rfl)
    unfold Close
    simp [List.count_append, List.count_cons, h1, h2]
  · intro m expire r hret
    have hsv1 : (saveEvents s key m expire).count .Lock = 0 := by
      unfold saveEvents; split_ifs <;> simp [List.count_cons]
    have hsv2 : (saveEvents s key m expire).count .Unlock = 0 := by
      unfold saveEvents; split_ifs <;> simp [List.count_cons]
    obtain ⟨hl1, hl2⟩ := pushLoop_lock_count env key (stamped s m) s.c.connections.nodes
      ⟨none, none, s.conns⟩
    rcases PushMsg_cases env s key m expire with ⟨err, _, _, heq⟩ | ⟨_, h | h | h⟩
    · rw [heq]
      simp [List.count_cons, pushed]
    · obtain ⟨hnil, heq⟩ := h
      unfold fanOut at hnil heq
      rw [hnil] at hl2
      rw [heq]
      simp only [List.count_append, hsv1, hsv2, hl1, hl2]
      simp [List.count_cons, pushed, returnsError]
    · obtain ⟨err, herr, heq⟩ := h
      unfold fanOut at herr heq
      rw [herr] at hl2
      rw [heq]
      simp only [List.count_append, hsv1, hsv2, hl1, hl2]
      simp [List.count_cons, pushed, returnsError]
    · obtain ⟨f, _, heq⟩ := h
      rw [heq] at hret
      simp at hret

/-- C19 at the channel with two connections: a push whose current encoder
fails half way returns with the mutex unlocked, after one lock and one
unlock. -/
theorem mutex_released_witness :
    (PushMsg envNewFails st2 "k" ⟨[7], 0⟩ 0).ret.1 = .ret (some (.other 9)) ∧
    (PushMsg envNewFails st2 "k" ⟨[7], 0⟩ 0).st.c.mutex = false ∧
    (PushMsg envNewFails st2 "k" ⟨[7], 0⟩ 0).tr.count .Unlock = 1 :=
  ⟨by decide,
   ((mutex_released envNewFails st2 "k").2.2.2 ⟨[7], 0⟩ 0 (some (.other 9)) (by decide)).1,
   ((mutex_released envNewFails st2 "k").2.2.2 ⟨[7], 0⟩ 0 (some (.other 9))
      (by decide)).2.2.2⟩

/-! ## The accesses to the connection set and the mutex -/

/-- The check of the accesses at a lock: the mutex is held from there. -/
theorem guardedFrom_lock (held : Bool) (t : List Event) :
    guardedFrom held (.Lock :: t) = guardedFrom true t := by
  simp [guardedFrom]

/-- The check of the accesses at an event that is neither a lock nor an
unlock. -/
theorem guardedFrom_cons (held : Bool) (ev : Event) (t : List Event)
    (h1 : ev ≠ .Lock) (h2 : ev ≠ .Unlock) :
    guardedFrom held (ev :: t) = ((!ev.accessesSet || held) && guardedFrom held t) := by
  cases ev <;> simp [guardedFrom] at h1 h2 ⊢

/-- While the mutex is held, events that neither lock nor unlock pass the
check of the accesses. -/
theorem guardedFrom_held_append (l t : List Event)
    (h : ∀ ev ∈ l, ev ≠ .Lock ∧ ev ≠ .Unlock) :
    guardedFrom true (l ++ t) = guardedFrom true t := by
  induction l with
  | nil => rfl
  | cons a l ih =>
    have ha := h a (List.mem_cons_self _ _)
    rw [List.cons_append, guardedFrom_cons true a _ ha.1 ha.2,
      ih (fun ev hev => h ev (List.mem_cons_of_mem _ hev))]
    simp

/-- The events of the loop of PushMsg pass the check of the accesses when
the mutex is held at its start; after them the mutex is still held, unless
the loop returned an error, which unlocks it. -/
theorem pushLoop_guarded (env : Env) (key : String) (m : Message) :
    ∀ (nodes : List Node) (ls : LoopSt) (t : List Event),
      guardedFrom true ((pushLoop env key m nodes ls).2.2 ++ t)
        = guardedFrom (!returnsError (pushLoop env key m nodes ls).1) t := by
  intro nodes
  induction nodes with
  | nil => intro ls t; simp [pushLoop, returnsError]
  | cons e rest ih =>
    intro ls t
    have hevs : ∀ ev ∈ (selectMsg env m (ls.conns e.Conn).Version ls.oldMsg ls.msg).1,
        ev ≠ .Lock ∧ ev ≠ .Unlock := by
      intro ev hev
      rcases selectMsg_events env m _ _ _ ev hev with h | h <;> simp [h]
    rcases hsel : selectMsg env m (ls.conns e.Conn).Version ls.oldMsg ls.msg with
      ⟨evs, (err | ⟨b, o, g⟩)⟩
    · rw [pushLoop_cons_err env key m e rest ls evs err hsel]
      rw [hsel] at hevs
      simp only [List.append_assoc]
      rw [guardedFrom_held_append evs _ hevs]
      simp [guardedFrom, returnsError]
    · rw [hsel] at hevs
      rcases hw : (ls.conns e.Conn).Write key b with c1 | f
      · rw [pushLoop_cons_ret env key m e rest ls evs _ _ _ c1 hsel hw]
        simp only [List.append_assoc]
        rw [guardedFrom_held_append evs _ hevs]
        simp only [List.cons_append, List.nil_append]
        rw [guardedFrom_cons true _ _ (by simp) (by simp),
          guardedFrom_cons true _ _ (by simp) (by simp), ih]
        simp
      · rw [pushLoop_cons_fault env key m e rest ls evs _ _ _ f hsel hw]
        simp only [List.append_assoc]
        rw [guardedFrom_held_append evs _ hevs]
        simp only [List.cons_append, List.nil_append]
        rw [guardedFrom_cons true _ _ (by simp) (by simp)]
        simp [returnsError]

/-- C16, where the code departs from the claim: the AddConn that attaches
connection 1 to the new channel, and the RemoveConn of its handle, read the
length of the connection set for their log line after the unlock, so their
events do not pass the check that every access comes while the mutex is
held. The same holds for every AddConn that returns a handle and every
RemoveConn that returns nil; the calls of AddConn and RemoveConn that return
an error or fault, and every call of PushMsg and of Close, do pass it. -/
theorem set_read_after_unlock :
    (AddConn envOK st0 "k" 1).tr
      = [.Lock, .Len 0, .ConnWrite 1 [43, 104], .MakeMsgs 1 4, .HandleWrite 1 "k",
          .PushFront 0 1, .Unlock, .IncrAdd, .Len 1, .LogInfo] ∧
    guarded (AddConn envOK st0 "k" 1).tr = false ∧
    (RemoveConn st1 "k" 0).tr
      = [.Lock, .Remove 0, .Unlock, .CloseMsgs 1, .IncrRemove, .Len 0, .LogInfo] ∧
    guarded (RemoveConn st1 "k" 0).tr = false ∧
    (∀ (env : Env) (s : State) (key : String) (conn : ConnId),
      guarded (AddConn env s key conn).tr = (AddConn env s key conn).ret.1.isNone) ∧
    (∀ (s : State) (key : String) (node : NodeId),
      guarded (RemoveConn s key node).tr
        = !decide ((RemoveConn s key node).ret = .ret none)) ∧
    (∀ (env : Env) (s : State) (key : String) (m : Message) (expire : Nat),
      guarded (PushMsg env s key m expire).tr = true) ∧
    (∀ (env : Env) (s : State), guarded (Close env s).tr = true) := by
  refine ⟨by decide, by decide, by decide, by decide, ?_, ?_, ?_, ?_⟩
  · intro env s key conn
    by_cases hcap : (s.c.connections.Len : Int) + 1 > env.Conf.MaxSubscriberPerChannel
    · rw [AddConn_eq_full env s key conn hcap]
      simp [guarded, guardedFrom, Event.accessesSet]
    · rcases hw : env.connWrite conn env.HeartbeatReply with _ | err
      · rw [AddConn_eq_ok env s key conn hcap hw]
        simp [guarded, guardedFrom, Event.accessesSet]
      · rw [AddConn_eq_err env s key conn err hcap hw]
        simp [guarded, guardedFrom, Event.accessesSet]
  · intro s key node
    rcases RemoveConn_cases s key node with ⟨_, heq⟩ | ⟨c, _, _, heq⟩ | ⟨c, q, _, _, _, heq⟩
      | ⟨c, q, _, _, _, heq⟩ <;> rw [heq] <;>
      simp [guarded, guardedFrom, Event.accessesSet]
  · intro env s key m expire
    have hsv : ∀ ev ∈ saveEvents s key m expire, ev ≠ .Lock ∧ ev ≠ .Unlock := by
      intro ev hev
      have := saveEvents_isSave s key m expire ev hev
      constructor <;> intro h <;> rw [h] at this <;> simp [Event.isSave] at this
    have hl := pushLoop_guarded env key (stamped s m) s.c.connections.nodes
      ⟨none, none, s.conns⟩
    have hpre : ∀ tl : List Event,
        guarded ([.Lock, .ID s.c.timeID.ID.1] ++ saveEvents s key m expire ++ [.Front]
          ++ (fanOut env s key m).2.2 ++ tl)
        = guardedFrom (!returnsError (fanOut env s key m).1) tl := by
      intro tl
      unfold guarded fanOut
      simp only [List.append_assoc, List.cons_append, List.nil_append]
      rw [guardedFrom_lock, guardedFrom_cons true _ _ (by simp) (by simp),
        guardedFrom_held_append _ _ hsv, guardedFrom_cons true _ _ (by simp) (by simp), hl]
      simp [Event.accessesSet]
    rcases PushMsg_cases env s key m expire with ⟨err, _, _, heq⟩ | ⟨_, h | h | h⟩
    · rw [heq]
      simp [guarded, guardedFrom, Event.accessesSet]
    · obtain ⟨hnil, heq⟩ := h
      rw [heq]
      simp only
      rw [hpre, hnil]
      simp [guardedFrom, returnsError]
    · obtain ⟨err, herr, heq⟩ := h
      rw [heq]
      simp only
      rw [← List.append_nil (_ ++ (fanOut env s key m).2.2), hpre]
      simp [guardedFrom]
    · obtain ⟨f, hf, heq⟩ := h
      rw [heq]
      simp only
      rw [← List.append_nil (_ ++ (fanOut env s key m).2.2), hpre]
      simp [guardedFrom]
  · intro env s
    have hev : ∀ ev ∈ closeLoop env s.c.connections.nodes, ev ≠ .Lock ∧ ev ≠ .Unlock := by
      intro ev hev
      rcases (closeLoop_spec env s.c.connections.nodes).2 ev hev with ⟨c, h, _⟩ | h | h <;>
        simp [h]
    unfold Close guarded
    simp only [List.append_assoc, List.cons_append, List.nil_append]
    rw [guardedFrom_lock, guardedFrom_cons true _ _ (by simp) (by simp),
      guardedFrom_held_append _ _ hev]
    simp [guardedFrom, Event.accessesSet]

/-! ## The assertion of RemoveConn -/

/-- What Remove gives for the handle of a node of a list with distinct
handles: the list with that node erased, and the value of the node. -/
theorem Remove_of_mem (l : Hlist) (e : Node) (hn : (l.nodes.map Node.id).Nodup)
    (he : e ∈ l.nodes) :
    l.Remove e.id
      = (⟨l.nodes.erase e, l.fresh⟩, if e.isConn then some e.Conn else none) := by
  unfold Hlist.Remove
  rw [find_of_mem _ e hn he, filter_eq_erase _ e hn he]

/-- What Remove gives for a handle: a connection exactly when the node of
the list with the handle holds one; and no node of what is left has the
handle. -/
theorem Remove_spec (l : Hlist) (node : NodeId) :
    (∀ x ∈ (l.Remove node).1.nodes, x ∈ l.nodes) ∧
    (∀ conn, (l.Remove node).2 = some conn →
      ∃ e ∈ l.nodes, e.id = node ∧ e.Conn = conn ∧ e.isConn = true) ∧
    ((∀ x ∈ l.nodes, x.id ≠ node) → l.Remove node = (l, none)) ∧
    (∀ x ∈ (l.Remove node).1.nodes, x.id ≠ node) := by
  rcases hf : l.nodes.find? (fun e => e.id = node) with _ | e
  · have heq : l.Remove node = (l, none) := by
      simp only [Hlist.Remove, hf]
    rw [heq]
    simp only [List.find?_eq_none, decide_eq_true_eq] at hf
    exact ⟨fun x hx => hx, by simp, fun _ => rfl, fun x hx => hf x hx⟩
  · have heq : l.Remove node
        = (⟨l.nodes.filter (fun x => x.id ≠ node), l.fresh⟩,
            if e.isConn then some e.Conn else none) := by
      simp only [Hlist.Remove, hf]
    rw [heq]
    have h1 := List.find?_some hf
    have h2 := List.mem_of_find?_eq_some hf
    simp only [decide_eq_true_eq] at h1
    refine ⟨?_, ?_, ?_, ?_⟩
    · intro x hx
      exact (List.mem_filter.1 hx).1
    · intro conn hc
      by_cases hv : e.isConn = true
      · simp only [hv, if_true, Option.some.injEq] at hc
        exact ⟨e, h2, h1, hc, hv⟩
      · simp [hv] at hc
    · intro hall
      exact absurd h1 (hall e h2)
    · intro x hx
      simpa using (List.mem_filter.1 hx).2

/-- C17: RemoveConn returns ErrAssectionConn exactly when the value that
Remove hands back is no connection. In that case the call has performed the
lock, the removal and the unlock only: no queue is closed, the counter is not
decremented and no connection is touched. When the value is a connection with
an open queue the call returns nil, and in a channel whose callers keep the
precondition of AddConn it returns nil exactly when the value is a
connection. In every case the connection set after the call is what the
removal left, with no node of the given handle in it; in particular, when the
handle is that of a node of the list whose value is no connection, the call
returns ErrAssectionConn and that node has nevertheless been taken out: the
list is the old one with the node erased, one shorter. -/
theorem RemoveConn_assertion (s : State) (key : String) (node : NodeId) :
    ((RemoveConn s key node).ret = .ret (some .ErrAssectionConn)
      ↔ (s.c.connections.Remove node).2 = none) ∧
    ((s.c.connections.Remove node).2 = none →
      (RemoveConn s key node).tr = [.Lock, .Remove node, .Unlock] ∧
      (∀ c, Event.CloseMsgs c ∉ (RemoveConn s key node).tr) ∧
      Event.IncrRemove ∉ (RemoveConn s key node).tr ∧
      (RemoveConn s key node).st.conns = s.conns ∧
      (RemoveConn s key node).st.ConnStat = s.ConnStat) ∧
    (∀ conn, (s.c.connections.Remove node).2 = some conn → (s.conns conn).open = true →
      (RemoveConn s key node).ret = .ret none) ∧
    (∀ M, ReachableFresh M s →
      ((RemoveConn s key node).ret = .ret none
        ↔ ∃ conn, (s.c.connections.Remove node).2 = some conn)) ∧
    (RemoveConn s key node).st.c.connections = (s.c.connections.Remove node).1 ∧
    (∀ x ∈ (RemoveConn s key node).st.c.connections.nodes, x.id ≠ node) ∧
    (∀ e ∈ s.c.connections.nodes, e.id = node →
      (s.c.connections.nodes.map Node.id).Nodup → e.isConn = false →
      (RemoveConn s key node).ret = .ret (some .ErrAssectionConn) ∧
      (RemoveConn s key node).st.c.connections.nodes = s.c.connections.nodes.erase e ∧
      e ∉ (RemoveConn s key node).st.c.connections.nodes ∧
      (RemoveConn s key node).st.c.connections.Len + 1 = s.c.connections.Len) := by
  have hopen : ∀ conn, (s.c.connections.Remove node).2 = some conn →
      (s.conns conn).open = true → (RemoveConn s key node).ret = .ret none := by
    intro conn hc ho
    unfold Connection.open at ho
    rcases RemoveConn_cases s key node with ⟨h, _⟩ | ⟨c, h, hq, _⟩ | ⟨c, q, h, hq, hcl, _⟩
      | ⟨c, q, _, _, _, heq⟩
    · rw [h] at hc; cases hc
    · rw [h] at hc; cases hc
      simp [hq] at ho
    · rw [h] at hc; cases hc
      simp [hq, hcl] at ho
    · rw [heq]
  have hconn := (RemoveConn_connections s key node).1
  have hiff : (RemoveConn s key node).ret = .ret (some .ErrAssectionConn)
      ↔ (s.c.connections.Remove node).2 = none := by
    rcases RemoveConn_cases s key node with ⟨h, heq⟩ | ⟨c, h, _, heq⟩ | ⟨c, q, h, _, _, heq⟩
      | ⟨c, q, h, _, _, heq⟩ <;> rw [heq, h] <;> simp
  refine ⟨hiff, ?_, hopen, ?_, hconn, ?_, ?_⟩
  · intro hn
    rcases RemoveConn_cases s key node with ⟨_, heq⟩ | ⟨c, h, _, _⟩ | ⟨c, q, h, _, _, _⟩
      | ⟨c, q, h, _, _, _⟩
    · rw [heq]; simp
    · rw [h] at hn; cases hn
    · rw [h] at hn; cases hn
    · rw [h] at hn; cases hn
  · intro M hr
    obtain ⟨_, _, _, h4, _⟩ := ReachableFresh.wf M s hr
    constructor
    · intro hret
      rcases RemoveConn_cases s key node with ⟨_, heq⟩ | ⟨c, h, _, _⟩ | ⟨c, q, h, _, _, _⟩
        | ⟨c, q, h, _, _, _⟩
      · rw [heq] at hret; simp at hret
      · exact ⟨c, h⟩
      · exact ⟨c, h⟩
      · exact ⟨c, h⟩
    · rintro ⟨conn, hc⟩
      obtain ⟨e, he, _, hec, _⟩ := (Remove_spec s.c.connections node).2.1 conn hc
      exact hopen conn hc (hec ▸ h4 e he)
  · rw [hconn]
    exact (Remove_spec s.c.connections node).2.2.2
  · intro e he hid hnd hv
    subst hid
    have hrem := Remove_of_mem s.c.connections e hnd he
    rw [hv] at hrem
    simp only [Bool.false_eq_true, if_false] at hrem
    have hnd1 : s.c.connections.nodes.Nodup := List.Nodup.of_map _ hnd
    refine ⟨hiff.2 (by rw [hrem]), by rw [hconn, hrem], ?_, ?_⟩
    · rw [hconn, hrem]
      exact fun h => ((List.Nodup.mem_erase_iff hnd1).1 h).1 rfl
    · rw [hconn, hrem]
      simp only [Hlist.Len]
      rw [List.length_erase_of_mem he]
      have : 0 < s.c.connections.nodes.length := List.length_pos_of_mem he
      omega

/-- C17 at the channel with connection 1 under the handle 0 and a node of
handle 1 whose value is no connection: RemoveConn of the handle 1 returns
ErrAssectionConn after the lock, the removal and the unlock, and the node is
gone from the list; RemoveConn of the handle 0 returns nil. -/
theorem RemoveConn_assertion_witness :
    (RemoveConn stForeign "k" 1).ret = .ret (some .ErrAssectionConn) ∧
    (RemoveConn stForeign "k" 1).tr = [.Lock, .Remove 1, .Unlock] ∧
    (RemoveConn stForeign "k" 1).st.c.connections.nodes = [⟨0, 1, true⟩] ∧
    (RemoveConn stForeign "k" 0).ret = .ret none :=
  ⟨((RemoveConn_assertion stForeign "k" 1).2.2.2.2.2.2 ⟨1, 7, false⟩ (by decide) rfl
      (by decide) rfl).1,
   ((RemoveConn_assertion stForeign "k" 1).2.1 (by decide)).1,
   ((RemoveConn_assertion stForeign "k" 1).2.2.2.2.2.2 ⟨1, 7, false⟩ (by decide) rfl
      (by decide) rfl).2.1.trans (by decide),
   (RemoveConn_assertion stForeign "k" 0).2.2.1 1 (by decide) (by decide)⟩

/-! ## The active-connections counter -/

/-- PushMsg performs no counter increment and no counter decrement. -/
theorem PushMsg_no_incr (env : Env) (s : State) (key : String) (m : Message) (expire : Nat) :
    (PushMsg env s key m expire).tr.count .IncrAdd = 0 ∧
    (PushMsg env s key m expire).tr.count .IncrRemove = 0 := by
  have hloop : ∀ a : Event, a = .IncrAdd ∨ a = .IncrRemove →
      (fanOut env s key m).2.2.countP (fun x => x == a) = 0 := by
    intro a ha
    rw [List.countP_eq_zero]
    intro ev hev
    rcases pushLoop_events_kind env key (stamped s m) s.c.connections.nodes
      ⟨none, none, s.conns⟩ ev hev with h | h | h | h | h
    · rcases ha with ha | ha <;> simp [h, ha]
    · rcases ha with ha | ha <;> simp [h, ha]
    · rcases ha with ha | ha <;> subst ha <;> intro heq <;>
        simp only [beq_iff_eq] at heq <;> rw [heq] at h <;> simp [Event.isWrite] at h
    · rcases ha with ha | ha <;> simp [h, ha]
    · rcases ha with ha | ha <;> simp [h, ha]
  have h1 := PushMsg_countP_le env s key m expire (fun x => x == Event.IncrAdd) rfl
    (fun _ => rfl) (fun _ _ _ _ => rfl) rfl rfl rfl
  have h2 := PushMsg_countP_le env s key m expire (fun x => x == Event.IncrRemove) rfl
    (fun _ => rfl) (fun _ _ _ _ => rfl) rfl rfl rfl
  rw [hloop _ (Or.inl rfl)] at h1
  rw [hloop _ (Or.inr rfl)] at h2
  exact ⟨Nat.le_zero.1 h1, Nat.le_zero.1 h2⟩

/-- Close performs no counter increment and no counter decrement. -/
theorem Close_no_incr (env : Env) (s : State) :
    (Close env s).tr.count .IncrAdd = 0 ∧ (Close env s).tr.count .IncrRemove = 0 := by
  constructor <;>
  · apply List.count_eq_zero_of_not_mem
    intro hc
    rcases Close_events env s _ hc with h | h | h | h | h | ⟨x, h, _⟩ <;> simp at h

/-- Along every history the handles of the nodes are distinct and older
than the next handle, the counter equals the size of the connection set, it
equals the increments minus the decrements performed, and every node holds a
Connection. -/
theorem History.inv (M : Int) (t : List Event) (s : State) (h : History M t s) :
    (s.c.connections.nodes.map Node.id).Nodup ∧
    (∀ e ∈ s.c.connections.nodes, e.id < s.c.connections.fresh) ∧
    s.ConnStat = (s.c.connections.Len : Int) ∧
    s.ConnStat = (t.count .IncrAdd : Int) - (t.count .IncrRemove : Int) ∧
    (∀ e ∈ s.c.connections.nodes, e.isConn = true) := by
  induction h with
  | new h => simp [NewChannel, Hlist.New, Hlist.Len]
  | addConn env t s key conn _ _ ih =>
    obtain ⟨h1, h2, h3, h4, h5⟩ := ih
    by_cases hcap : (s.c.connections.Len : Int) + 1 > env.Conf.MaxSubscriberPerChannel
    · rw [AddConn_eq_full env s key conn hcap]
      refine ⟨h1, h2, h3, ?_, h5⟩
      simp only [List.count_append]
      simp [List.count_cons, h4]
    · rcases hw : env.connWrite conn env.HeartbeatReply with _ | err
      · rw [AddConn_eq_ok env s key conn hcap hw]
        simp only [Hlist.PushFront, Hlist.Len, List.map_append, List.map_cons, List.map_nil,
          nodup_snoc, List.mem_map, not_exists, not_and, List.mem_append,
          List.mem_singleton, List.length_append, List.length_cons, List.length_nil,
          List.count_append]
        refine ⟨⟨?_, h1⟩, ?_, ?_, ?_, ?_⟩
        · intro x hx heq
          exact absurd heq (Nat.ne_of_lt (h2 x hx))
        · rintro x (hx | hx)
          · exact Nat.lt_succ_of_lt (h2 x hx)
          · rw [hx]; exact Nat.lt_succ_self _
        · simp only [Hlist.Len] at h3
          rw [h3]; push_cast; ring
        · rw [h4]
          simp [List.count_cons]
          ring
        · rintro x (hx | hx)
          · exact h5 x hx
          · rw [hx]
      · rw [AddConn_eq_err env s key conn err hcap hw]
        refine ⟨h1, h2, h3, ?_, h5⟩
        simp only [List.count_append]
        simp [List.count_cons, h4]
  | removeConn t s key e r _ he hret ih =>
    obtain ⟨h1, h2, h3, h4, h5⟩ := ih
    have hrem := Remove_of_mem s.c.connections e h1 he
    rw [h5 e he, if_pos rfl] at hrem
    have hsub : (s.c.connections.nodes.erase e).Sublist s.c.connections.nodes :=
      List.erase_sublist _ _
    rcases RemoveConn_cases s key e.id with ⟨h, _⟩ | ⟨c, _, _, heq⟩ | ⟨c, q, _, _, _, heq⟩
      | ⟨c, q, _, _, _, heq⟩
    · rw [hrem] at h; cases h
    · rw [heq] at hret; cases hret
    · rw [heq] at hret; cases hret
    · rw [heq, hrem]
      refine ⟨(hsub.map _).nodup h1, fun x hx => h2 x (hsub.subset hx), ?_, ?_,
        fun x hx => h5 x (hsub.subset hx)⟩
      · simp only [Hlist.Len] at h3 ⊢
        rw [List.length_erase_of_mem he, h3]
        have : 0 < s.c.connections.nodes.length := List.length_pos_of_mem he
        omega
      · simp only [List.count_append]
        rw [h4]
        simp [List.count_cons]
        ring
  | pushMsg env t s key m expire r _ _ ih =>
    obtain ⟨h1, h2, h3, h4, h5⟩ := ih
    obtain ⟨f1, f2, _, _⟩ := PushMsg_frame env s key m expire
    obtain ⟨n1, n2⟩ := PushMsg_no_incr env s key m expire
    rw [f1, f2, List.count_append, List.count_append, n1, n2]
    exact ⟨h1, h2, h3, by simpa using h4, h5⟩
  | close env t s _ ih =>
    obtain ⟨h1, h2, h3, h4, h5⟩ := ih
    obtain ⟨n1, n2⟩ := Close_no_incr env s
    rw [List.count_append, List.count_append, n1, n2]
    exact ⟨h1, h2, h3, by simpa using h4, h5⟩

/-- C18: from a new channel with the counter at zero, after every sequence
of AddConn, RemoveConn with handles of attached nodes, PushMsg and Close
calls that returned, the number of counter increments minus the number of
counter decrements performed equals the size of the connection set, and it
is the value of the counter. A call of AddConn increments once exactly when
it returns a handle and never decrements; a call of RemoveConn decrements
once exactly when it returns nil and never increments; PushMsg and Close
do neither. -/
theorem counter_eq_size (M : Int) (t : List Event) (s : State) (h : History M t s) :
    (t.count .IncrAdd : Int) - (t.count .IncrRemove : Int) = (s.c.connections.Len : Int) ∧
    s.ConnStat = (s.c.connections.Len : Int) ∧
    (∀ (env : Env) (key : String) (conn : ConnId),
      (AddConn env s key conn).tr.count .IncrAdd
        = (if (AddConn env s key conn).ret.1.isSome then 1 else 0) ∧
      (AddConn env s key conn).tr.count .IncrRemove = 0) ∧
    (∀ (key : String) (node : NodeId),
      (RemoveConn s key node).tr.count .IncrRemove
        = (if (RemoveConn s key node).ret = .ret none then 1 else 0) ∧
      (RemoveConn s key node).tr.count .IncrAdd = 0) ∧
    (∀ (env : Env) (key : String) (m : Message) (expire : Nat),
      (PushMsg env s key m expire).tr.count .IncrAdd = 0 ∧
      (PushMsg env s key m expire).tr.count .IncrRemove = 0) ∧
    (∀ env : Env,
      (Close env s).tr.count .IncrAdd = 0 ∧ (Close env s).tr.count .IncrRemove = 0) := by
  obtain ⟨_, _, h3, h4, _⟩ := History.inv M t s h
  refine ⟨by rw [← h4, h3], h3, ?_, ?_, fun env key m expire => PushMsg_no_incr env s key m expire,
    fun env => Close_no_incr env s⟩
  · intro env key conn
    by_cases hcap : (s.c.connections.Len : Int) + 1 > env.Conf.MaxSubscriberPerChannel
    · rw [AddConn_eq_full env s key conn hcap]
      simp [List.count_cons]
    · rcases hw : env.connWrite conn env.HeartbeatReply with _ | err
      · rw [AddConn_eq_ok env s key conn hcap hw]
        simp [List.count_cons]
      · rw [AddConn_eq_err env s key conn err hcap hw]
        simp [List.count_cons]
  · intro key node
    rcases RemoveConn_cases s key node with ⟨_, heq⟩ | ⟨c, _, _, heq⟩ | ⟨c, q, _, _, _, heq⟩
      | ⟨c, q, _, _, _, heq⟩ <;> rw [heq] <;> simp [List.count_cons]

/-- C18 at the history of attaching connections 1 and 2 and removing the
handle of connection 1: two increments, one decrement, one node left. -/
theorem counter_eq_size_witness :
    ((RemoveConn st2 "k" 0).st.c.connections.Len : Int) = 1 ∧
    (RemoveConn st2 "k" 0).st.ConnStat = ((RemoveConn st2 "k" 0).st.c.connections.Len : Int) :=
  have hh : History 2
      (([] ++ (AddConn envOK st0 "k" 1).tr) ++ (AddConn envOK st1 "k" 2).tr
        ++ (RemoveConn st2 "k" 0).tr) (RemoveConn st2 "k" 0).st :=
    History.removeConn _ st2 "k" ⟨0, 1, true⟩ none
      (History.addConn envOK _ st1 "k" 2
        (History.addConn envOK _ st0 "k" 1 (History.new heap0) rfl) rfl)
      (by decide) (by decide)
  ⟨by decide, (counter_eq_size 2 _ _ hh).2.1⟩

/-! ## An encoder error in the middle of the push -/

/-- When the encoder of the version gives no error the choice succeeds, and
leaves the memo of the other encoder as it was. -/
theorem selectMsg_ok (env : Env) (m : Message) (v : String) (o g : ByteSlice)
    (h : (encoderOf env m v).2 = none) :
    ∃ evs b o1 g1, selectMsg env m v o g = (evs, .inr (b, o1, g1)) ∧
      (v ≠ "" → o1 = o) ∧ (v = "" → g1 = g) := by
  unfold encoderOf at h
  unfold selectMsg
  by_cases hv : v = ""
  · simp only [hv, if_true] at h ⊢
    by_cases ho : o = none
    · simp only [ho, if_true]
      rcases hob : env.OldBytes m with ⟨b0, _ | err⟩
      · exact ⟨_, _, _, _, rfl, fun h => absurd rfl h, fun _ => rfl⟩
      · rw [hob] at h; cases h
    · simp only [ho, if_false]
      exact ⟨_, _, _, _, rfl, fun h => absurd rfl h, fun _ => rfl⟩
  · simp only [hv, if_false] at h ⊢
    by_cases hg : g = none
    · simp only [hg, if_true]
      rcases hob : env.Bytes m with ⟨b0, _ | err⟩
      · exact ⟨_, _, _, _, rfl, fun _ => rfl, fun h => h.elim⟩
      · rw [hob] at h; cases h
    · simp only [hg, if_false]
      exact ⟨_, _, _, _, rfl, fun _ => rfl, fun h => h.elim⟩

/-- When the encoder of the version gives an error and its memo is nil, the
choice calls it and fails with that error. -/
theorem selectMsg_fail (env : Env) (m : Message) (v : String) (o g : ByteSlice) (err : Error)
    (h : (encoderOf env m v).2 = some err)
    (hm : (v = "" → o = none) ∧ (v ≠ "" → g = none)) :
    ∃ evs, selectMsg env m v o g = (evs, .inl err) ∧ evs.filter Event.isWrite = [] := by
  unfold encoderOf at h
  unfold selectMsg
  by_cases hv : v = ""
  · simp only [hv, if_true] at h ⊢
    simp only [hm.1 hv, if_true]
    rcases hob : env.OldBytes m with ⟨b0, _ | e1⟩
    · rw [hob] at h; cases h
    · rw [hob] at h
      simp only [Option.some.injEq] at h
      subst h
      exact ⟨_, rfl, by simp [Event.isWrite]⟩
  · simp only [hv, if_false] at h ⊢
    simp only [hm.2 hv, if_true]
    rcases hob : env.Bytes m with ⟨b0, _ | e1⟩
    · rw [hob] at h; cases h
    · rw [hob] at h
      simp only [Option.some.injEq] at h
      subst h
      exact ⟨_, rfl, by simp [Event.isWrite]⟩

/-- The loop over a first part of the list whose connections have open
queues and whose encoders give no error: it enqueues for each node of that
part, in order, and goes on with the rest of the list. -/
theorem pushLoop_prefix (env : Env) (key : String) (m : Message) (rest : List Node) :
    ∀ (pre : List Node) (ls : LoopSt), MemoOK env m ls.oldMsg ls.msg →
      (∀ x ∈ pre, (ls.conns x.Conn).open = true) →
      (∀ x ∈ pre, (encoderOf env m (ls.conns x.Conn).Version).2 = none) →
      ∃ (ls1 : LoopSt) (evs : List Event),
        pushLoop env key m (pre ++ rest) ls
          = ((pushLoop env key m rest ls1).1, (pushLoop env key m rest ls1).2.1,
              evs ++ (pushLoop env key m rest ls1).2.2) ∧
        MemoOK env m ls1.oldMsg ls1.msg ∧
        evs.filter Event.isWrite
          = pre.map (fun x => Event.Write x.Conn key
              (encoding env m (ls.conns x.Conn).Version)) ∧
        (∀ c, (ls1.conns c).Version = (ls.conns c).Version) ∧
        (∀ c q, (ls.conns c).Msgs = some q →
          (ls1.conns c).Msgs
            = some { q with buf := (q.buf ++ (pre.filter (fun x => x.Conn = c)).map
                (fun _ => (key, encoding env m (ls.conns c).Version))) }) ∧
        (∀ c, (∀ x ∈ pre, x.Conn ≠ c) → ls1.conns c = ls.conns c) ∧
        ((∀ x ∈ pre, (ls.conns x.Conn).Version ≠ "") → ls1.oldMsg = ls.oldMsg) ∧
        ((∀ x ∈ pre, (ls.conns x.Conn).Version = "") → ls1.msg = ls.msg) := by
  intro pre
  induction pre with
  | nil =>
    intro ls hm _ _
    exact ⟨ls, [], by simp, hm, by simp, fun _ => rfl, by simp, fun _ _ => rfl,
      fun _ => rfl, fun _ => rfl⟩
  | cons x pre ih =>
    intro ls hm hopen hok
    obtain ⟨evs0, b, o1, g1, hsel, hko, hkg⟩ := selectMsg_ok env m (ls.conns x.Conn).Version
      ls.oldMsg ls.msg (hok x (List.mem_cons_self _ _))
    obtain ⟨c1, hw⟩ := Write_of_open (ls.conns x.Conn) key b (hopen x (List.mem_cons_self _ _))
    obtain ⟨hb, hm1⟩ := selectMsg_inr env m _ _ _ _ _ _ evs0 hm hsel
    obtain ⟨hv1, q0, hq0, _, hq1⟩ := Write_ret _ _ _ _ hw
    have hver : ∀ c, ((ls.conns.set x.Conn c1) c).Version = (ls.conns c).Version := by
      intro c
      simp only [Heap.set]
      split_ifs with hc
      · rw [hc]; exact hv1
      · rfl
    have hop : ∀ c, ((ls.conns.set x.Conn c1) c).open = (ls.conns c).open := by
      intro c
      simp only [Heap.set]
      split_ifs with hc
      · rw [hc, (Write_open _ _ _ _ hw).1, (Write_open _ _ _ _ hw).2]
      · rfl
    obtain ⟨ls1, evs, heq, i1, i2, i3, i4, i5, i6, i7⟩ :=
      ih ⟨o1, g1, ls.conns.set x.Conn c1⟩ hm1
        (fun y hy => by rw [hop]; exact hopen y (List.mem_cons_of_mem _ hy))
        (fun y hy => by
          simp only at *
          rw [hver]; exact hok y (List.mem_cons_of_mem _ hy))
    simp only at i2 i3 i4 i5 i6 i7
    refine ⟨ls1, evs0 ++ [.Write x.Conn key b, .Next] ++ evs, ?_, i1, ?_, ?_, ?_, ?_, ?_, ?_⟩
    · rw [List.cons_append, pushLoop_cons_ret env key m x (pre ++ rest) ls evs0 _ _ _ c1 hsel hw,
        heq]
      simp only [List.append_assoc]
    · rw [List.filter_append, List.filter_append,
        selectMsg_filter_write env m _ _ _ evs0 _ hsel, i2]
      simp only [List.nil_append, List.map_cons, hver, hb]
      rfl
    · intro c
      rw [i3, hver]
    · intro c q hq
      by_cases hc : x.Conn = c
      · subst hc
        rw [hq] at hq0
        injection hq0 with hqq
        subst hqq
        have hset : ((ls.conns.set x.Conn c1) x.Conn).Msgs
            = some { q with buf := q.buf ++ [(key, b)] } := by
          simp only [Heap.set, if_true]; exact hq1
        rw [i4 x.Conn _ hset, hver]
        simp [List.filter_cons, hb]
      · have hset : ((ls.conns.set x.Conn c1) c).Msgs = some q := by
          simp only [Heap.set]
          rw [if_neg (fun h => hc h.symm)]
          exact hq
        rw [i4 c q hset, hver]
        simp [List.filter_cons, hc]
    · intro c hc
      rw [i5 c (fun y hy => hc y (List.mem_cons_of_mem _ hy))]
      simp only [Heap.set]
      rw [if_neg (fun h => hc x (List.mem_cons_self _ _) h.symm)]
    · intro hall
      rw [i6 (fun y hy => by rw [hver]; exact hall y (List.mem_cons_of_mem _ hy))]
      exact hko (hall x (List.mem_cons_self _ _))
    · intro hall
      rw [i7 (fun y hy => by rw [hver]; exact hall y (List.mem_cons_of_mem _ hy))]
      exact hkg (hall x (List.mem_cons_self _ _))

/-- C15: when the save is skipped or succeeds, the nodes before the node e
of the list have connections with open queues whose encoders give no error,
and the encoder that the connection of e needs gives the error err (so this
is the first call of that encoder in the push), PushMsg returns exactly err,
with the mutex unlocked; it has enqueued, in order, for each node before e
and for no other, each queue keeps the payloads it got, the connections that
no node before e holds are untouched, and the connection set is as it was. -/
theorem PushMsg_encoder_error (env : Env) (s : State) (key : String) (m : Message)
    (expire : Nat) (pre post : List Node) (e : Node) (err : Error)
    (hsave : expire > 0 → env.SavePrivateMessage key m.Msg s.c.timeID.ID.1 expire = none)
    (hnodes : s.c.connections.nodes = pre ++ e :: post)
    (hopen : ∀ x ∈ pre, (s.conns x.Conn).open = true)
    (hok : ∀ x ∈ pre, (encoderOf env (stamped s m) (s.conns x.Conn).Version).2 = none)
    (herr : (encoderOf env (stamped s m) (s.conns e.Conn).Version).2 = some err) :
    (PushMsg env s key m expire).ret.1 = .ret (some err) ∧
    (PushMsg env s key m expire).st.c.mutex = false ∧
    (PushMsg env s key m expire).tr.filter Event.isWrite
      = pre.map (fun x => Event.Write x.Conn key
          (encoding env (stamped s m) (s.conns x.Conn).Version)) ∧
    written (PushMsg env s key m expire).tr = pre.map Node.Conn ∧
    (∀ c q, (s.conns c).Msgs = some q →
      ((PushMsg env s key m expire).st.conns c).Msgs
        = some { q with buf := (q.buf ++ (pre.filter (fun x => x.Conn = c)).map
            (fun _ => (key, encoding env (stamped s m) (s.conns c).Version))) }) ∧
    (∀ c, (∀ x ∈ pre, x.Conn ≠ c) → (PushMsg env s key m expire).st.conns c = s.conns c) ∧
    (PushMsg env s key m expire).st.c.connections = s.c.connections := by
  obtain ⟨ls1, evs, heq, _, i2, i3, i4, i5, i6, i7⟩ :=
    pushLoop_prefix env key (stamped s m) (e :: post) pre ⟨none, none, s.conns⟩
      ⟨Or.inl rfl, Or.inl rfl⟩ hopen hok
  simp only at i2 i3 i4 i5 i6 i7
  have hdiff : ∀ x ∈ pre, ¬ ((s.conns x.Conn).Version = "" ↔ (s.conns e.Conn).Version = "") := by
    intro x hx hiff
    have h1 := hok x hx
    unfold encoderOf at h1 herr
    by_cases hv : (s.conns e.Conn).Version = ""
    · rw [if_pos hv] at herr
      rw [if_pos (hiff.2 hv), herr] at h1
      cases h1
    · rw [if_neg hv] at herr
      rw [if_neg (fun h => hv (hiff.1 h)), herr] at h1
      cases h1
  have hmemo : ((ls1.conns e.Conn).Version = "" → ls1.oldMsg = none) ∧
      ((ls1.conns e.Conn).Version ≠ "" → ls1.msg = none) := by
    rw [i3]
    constructor
    · intro hv
      apply i6
      intro x hx hx1
      exact hdiff x hx ⟨fun _ => hv, fun _ => hx1⟩
    · intro hv
      apply i7
      intro x hx
      by_contra hx1
      exact hdiff x hx ⟨fun h => absurd h hx1, fun h => absurd h hv⟩
  obtain ⟨evs1, hsel, hnw⟩ := selectMsg_fail env (stamped s m) (ls1.conns e.Conn).Version
    ls1.oldMsg ls1.msg err (by rw [i3]; exact herr) hmemo
  have hloop : fanOut env s key m = (.ret (some err), ls1.conns, evs ++ (evs1 ++ [.Unlock])) := by
    unfold fanOut
    rw [hnodes, heq, pushLoop_cons_err env key (stamped s m) e post ls1 evs1 err hsel]
  have hfilter : (PushMsg env s key m expire).tr.filter Event.isWrite
      = pre.map (fun x => Event.Write x.Conn key
          (encoding env (stamped s m) (s.conns x.Conn).Version)) ∧
      (PushMsg env s key m expire).ret.1 = .ret (some err) ∧
      (PushMsg env s key m expire).st
        = { s with c := pushed s, conns := ls1.conns } := by
    have hsv : (saveEvents s key m expire).filter Event.isWrite = [] := by
      unfold saveEvents
      split_ifs <;> simp [Event.isWrite]
    rcases PushMsg_cases env s key m expire with ⟨e1, hx, hs1, _⟩ | ⟨_, h | h | h⟩
    · rw [hsave hx] at hs1; cases hs1
    · rw [hloop] at h; simp at h
    · obtain ⟨e1, he1, hpm⟩ := h
      rw [hloop] at he1 hpm
      simp only [Outcome.ret.injEq, Option.some.injEq] at he1
      subst he1
      rw [hpm]
      refine ⟨?_, rfl, rfl⟩
      simp only [List.filter_append, hsv, i2, hnw]
      simp [Event.isWrite]
    · obtain ⟨f, hf, _⟩ := h
      rw [hloop] at hf; simp at hf
  obtain ⟨h1, h2, h3⟩ := hfilter
  refine ⟨h2, by rw [h3]; rfl, h1, written_of_filter _ _ key _ h1, ?_, ?_, by rw [h3]; rfl⟩
  · intro c q hq
    rw [h3]
    exact i4 c q hq
  · intro c hc
    rw [h3]
    exact i5 c hc

/-- C15 at the channel with the legacy connection 1 in front of the
current-protocol connection 2 and a current encoder that fails: the push
returns the error of the encoder after it has enqueued for connection 1
only. -/
theorem PushMsg_encoder_error_witness :
    (PushMsg envNewFails st2 "k" ⟨[7], 0⟩ 0).ret.1 = .ret (some (.other 9)) ∧
    written (PushMsg envNewFails st2 "k" ⟨[7], 0⟩ 0).tr = [1] :=
  ⟨(PushMsg_encoder_error envNewFails st2 "k" ⟨[7], 0⟩ 0 [⟨0, 1, true⟩] [] ⟨1, 2, true⟩
      (.other 9) (fun h => absurd h (by decide)) (by decide) (by decide) (by decide)
      (by decide)).1,
   (PushMsg_encoder_error envNewFails st2 "k" ⟨[7], 0⟩ 0 [⟨0, 1, true⟩] [] ⟨1, 2, true⟩
      (.other 9) (fun h => absurd h (by decide)) (by decide) (by decide) (by decide)
      (by decide)).2.2.2.1⟩

end Zpush
